import Mathlib

/-!
Shallow embedding of the checkers rules engine (src/src/checkers/board.py,
src/src/checkers/game.py, src/checkers/move.py) and verification of the
specification's claims about it.

Conventions of the embedding:
  * Python exceptions are modelled with the Except monad; Err.indexError
    stands for IndexError and Err.wrongMove for WrongMoveError.  A Python
    method that can raise becomes a function into Except Err.
  * Machine integers are modelled as Int; Python floor division (//) is
    Int.fdiv and Python % (with a positive modulus) is Int.emod, which is
    the % of Int in Lean.
  * Mutation is modelled by explicit state passing: a method that mutates
    self becomes a function Game -> ... -> Except Err Game.
  * The recursive capture search carries a fuel parameter to make the
    recursion structural; the canonical entry point passes more fuel than
    the search can ever consume (the chain length is bounded by the number
    of squares), and the safety theorems are proved for every fuel value.
-/

namespace Checkers

/-- Cell values of the board (board.py, class Cell). -/
inductive Cell
  | EMPTY
  | BLACK
  | WHITE
  | BLACK_QUEEN
  | WHITE_QUEEN
deriving DecidableEq, Repr

/-- Player colours (game.py, class Color). -/
inductive Color
  | BLACK
  | WHITE
deriving DecidableEq, Repr

/-- Game states (game.py, class GameState). -/
inductive GameState
  | TIE
  | BLACK_WON
  | WHITE_WON
  | UNFINISHED
deriving DecidableEq, Repr

/-- Exception kinds raised by the Python code: IndexError (raised by the
board accessors and raw list indexing) and WrongMoveError (move.py). -/
inductive Err
  | indexError
  | wrongMove
deriving DecidableEq, Repr

instance {α : Type} [DecidableEq α] : DecidableEq (Except Err α) := by
  intro a b
  cases a <;> cases b
  case error.error e f =>
    cases e <;> cases f <;> first
      | exact isTrue rfl
      | exact isFalse (by intro h; cases h)
  case error.ok e x => exact isFalse (by intro h; cases h)
  case ok.error x e => exact isFalse (by intro h; cases h)
  case ok.ok x y =>
    by_cases h : x = y
    · exact isTrue (by rw [h])
    · exact isFalse (by intro hh; cases hh; exact h rfl)

/-- A square: (row, column), both integers as in the Python code. -/
abbrev Sq := ℤ × ℤ

/-- The board (board.py, class Board): the logical size and the backing
8x8 list-of-lists storage.  The Python class attribute SIZE is 8 and the
constructor always allocates a Board.SIZE x Board.SIZE matrix, whatever
the requested size is. -/
structure Board where
  size : ℕ
  cells : List (List Cell)
deriving DecidableEq, Repr

/-- Board.SIZE class attribute of board.py. -/
def SIZE : ℕ := 8

/-- Raw write self._board[row][col] = v for nonnegative indices: raises
IndexError when the index is outside the allocated lists (used by
fill_initial, which writes without the size check). -/
def Board.rawSet (b : Board) (row col : ℕ) (v : Cell) : Except Err Board :=
  match b.cells.get? row with
  | none => .error .indexError
  | some r =>
    match r.get? col with
    | none => .error .indexError
    | some _ => .ok { b with cells := b.cells.set row (r.set col v) }

/-- Board.get_cell: bounds check against self.size (raising IndexError),
then the raw list read (which itself can raise when the allocation is
smaller than self.size). -/
def Board.get_cell (b : Board) (row col : ℤ) : Except Err Cell :=
  if 0 ≤ row ∧ row < (b.size : ℤ) ∧ 0 ≤ col ∧ col < (b.size : ℤ) then
    match b.cells.get? row.toNat with
    | none => .error .indexError
    | some r =>
      match r.get? col.toNat with
      | none => .error .indexError
      | some cell => .ok cell
  else .error .indexError

/-- Board.set_cell: bounds check against self.size, then the raw write. -/
def Board.set_cell (b : Board) (row col : ℤ) (cell : Cell) : Except Err Board :=
  if 0 ≤ row ∧ row < (b.size : ℤ) ∧ 0 ≤ col ∧ col < (b.size : ℤ) then
    b.rawSet row.toNat col.toNat cell
  else .error .indexError

/-- One row-filling loop of Board.fill_initial: for col in range(size):
if row % 2 != col % 2: self._board[row][col] = v. -/
def Board.fillRow (b : Board) (row : ℕ) (v : Cell) : Except Err Board :=
  (List.range b.size).foldlM
    (fun b1 col => if row % 2 ≠ col % 2 then b1.rawSet row col v else .ok b1) b

/-- Row loop of Board.fill_initial over a given list of row indices. -/
def Board.fillRows (b : Board) (rows : List ℕ) (v : Cell) : Except Err Board :=
  rows.foldlM (fun b0 row => b0.fillRow row v) b

/-- Board.fill_initial: black men on the dark squares of the top
size//2 - 1 + size%2 rows, then white men on the dark squares of rows
size//2 + 1 .. size - 1 (Python ranges; the bounds are computed with
Python integer arithmetic, hence via Int here). -/
def Board.fill_initial (b : Board) : Except Err Board := do
  let k : ℤ := (b.size : ℤ) / 2 - 1 + (b.size : ℤ) % 2
  let b1 ← b.fillRows (List.range k.toNat) Cell.BLACK
  b1.fillRows (List.range' (b.size / 2 + 1) (b.size - (b.size / 2 + 1))) Cell.WHITE

/-- Board.__init__(size): self.size is Board.SIZE unless size != 0; the
backing storage is always Board.SIZE x Board.SIZE; then fill_initial. -/
def Board.init (size : ℕ) : Except Err Board :=
  Board.fill_initial
    { size := if size ≠ 0 then size else SIZE
      cells := List.replicate SIZE (List.replicate SIZE Cell.EMPTY) }

/-- A move (move.py, class Move): a start square and an ordered list of
destination squares.  The index field models the shared iteration cursor
self.index that Move.__iter__ stores on the object itself (it is absent
until the first traversal in Python; 0 here). -/
structure Move where
  start : Sq
  steps : List Sq
  index : ℕ
deriving DecidableEq, Repr

/-- Move.__iter__: resets the shared cursor on the object to 0 and
returns the same object. -/
def Move.iter (m : Move) : Move :=
  { m with index := 0 }

/-- Move.__next__: returns steps[index] and advances the shared cursor,
or signals StopIteration (none) when the cursor is past the end. -/
def Move.next (m : Move) : Option Sq × Move :=
  if h : m.index < m.steps.length then
    (some (m.steps.get ⟨m.index, h⟩), { m with index := m.index + 1 })
  else (none, m)

/-- The engine state (game.py, class Game): board, game state, side to
move, the change-log stack last_changes, the two occupant counters and
the repetition counter with its ceiling. -/
structure Game where
  board : Board
  state : GameState
  turn : Color
  last_changes : List (List (ℤ × ℤ × Cell))
  black_count : ℤ
  white_count : ℤ
  tie_counter : ℤ
  tie_max : ℤ
deriving DecidableEq, Repr

/-- Game._initial_black_count, computed from self.board.size with Python
integer arithmetic (floor division). -/
def initial_black_count (b : Board) : ℤ :=
  let s : ℤ := (b.size : ℤ)
  (s.fdiv 2 - 1 + s % 2) * (s.fdiv 2) + ((s.fdiv 2 - 1 + s % 2).fdiv 2) * (s % 2)

/-- Game.__init__(size): board construction (which may raise), black to
move, empty change log, both counters at the initial black count, and
tie_max = size * size // 2 computed from the constructor argument. -/
def Game.init (size : ℕ) : Except Err Game := do
  let b ← Board.init size
  let bc := initial_black_count b
  .ok { board := b
        state := .UNFINISHED
        turn := .BLACK
        last_changes := []
        black_count := bc
        white_count := bc
        tie_counter := 0
        tie_max := ((size * size / 2 : ℕ) : ℤ) }

/-- Game.opponent. -/
def Game.opponent (g : Game) : Color :=
  if g.turn = .BLACK then .WHITE else .BLACK

/-- Game._is_turns_checker. -/
def Game.is_turns_checker (g : Game) (cell : Cell) : Bool :=
  (cell = Cell.BLACK ∨ cell = Cell.BLACK_QUEEN) ∧ g.turn = .BLACK
    ∨ (cell = Cell.WHITE ∨ cell = Cell.WHITE_QUEEN) ∧ g.turn = .WHITE

/-- Game._update_checkers_counters: decrement for the vacated value,
increment for the written value. -/
def Game.update_checkers_counters (g : Game) (prev cell : Cell) : Game :=
  let g1 := if prev = Cell.BLACK ∨ prev = Cell.BLACK_QUEEN then
    { g with black_count := g.black_count - 1 } else g
  let g2 := if prev = Cell.WHITE ∨ prev = Cell.WHITE_QUEEN then
    { g1 with white_count := g1.white_count - 1 } else g1
  let g3 := if cell = Cell.BLACK ∨ cell = Cell.BLACK_QUEEN then
    { g2 with black_count := g2.black_count + 1 } else g2
  if cell = Cell.WHITE ∨ cell = Cell.WHITE_QUEEN then
    { g3 with white_count := g3.white_count + 1 } else g3

/-- Game._set_cell: read the previous value (may raise), append
(row, col, prev) to last_changes[-1] (IndexError when the change log is
empty), write the board cell, and update the counters. -/
def Game.set_cell (g : Game) (row col : ℤ) (cell : Cell) : Except Err Game := do
  let prev ← g.board.get_cell row col
  match g.last_changes with
  | [] => .error .indexError
  | top :: rest => do
    let b ← g.board.set_cell row col cell
    .ok (Game.update_checkers_counters
      { g with board := b, last_changes := (top ++ [(row, col, prev)]) :: rest }
      prev cell)

/-- Game._set_cell_undo: read the previous value, decrement tie_counter
when positive, write the board cell, and update the counters. -/
def Game.set_cell_undo (g : Game) (row col : ℤ) (cell : Cell) : Except Err Game := do
  let prev ← g.board.get_cell row col
  let g1 := if g.tie_counter > 0 then { g with tie_counter := g.tie_counter - 1 } else g
  let b ← g1.board.set_cell row col cell
  .ok (Game.update_checkers_counters { g1 with board := b } prev cell)

/-- Loop of Game.undo: the popped change list is processed from its end
(list.pop), i.e. this helper receives the entries already reversed. -/
def Game.undoLoop (g : Game) : List (ℤ × ℤ × Cell) → Except Err Game
  | [] => .ok g
  | (row, col, cell) :: es => do
    let g1 ← g.set_cell_undo row col cell
    g1.undoLoop es

/-- Game.undo: no-op when the change log is empty; otherwise reset the
state to UNFINISHED, pop the last change frame and restore its entries in
reverse order. -/
def Game.undo (g : Game) : Except Err Game :=
  match g.last_changes with
  | [] => .ok g
  | changes :: rest =>
    Game.undoLoop { g with state := .UNFINISHED, last_changes := rest } changes.reverse

/-- Game._cell_with_opponent: IndexError from get_cell is caught and
treated as False. -/
def Game.cell_with_opponent (g : Game) (row col : ℤ) : Bool :=
  match g.board.get_cell row col with
  | .error _ => false
  | .ok cell =>
    if g.turn = .BLACK ∧ (cell = Cell.WHITE ∨ cell = Cell.WHITE_QUEEN) then true
    else if g.turn = .WHITE ∧ (cell = Cell.BLACK ∨ cell = Cell.BLACK_QUEEN) then true
    else false

/-- Game._empty_cell: IndexError from get_cell is caught and treated as
False. -/
def Game.empty_cell (g : Game) (row col : ℤ) : Bool :=
  match g.board.get_cell row col with
  | .error _ => false
  | .ok cell => cell = Cell.EMPTY

/-- Loop body of Game._dfs_find_beat_steps over the remaining directions.
The mutable bet set is threaded through explicitly (added to before the
recursive descent, removed from afterwards); descend is the recursive
call at one fuel less.  A hit of an already-bet square is a break: it
ends the loop, dropping the remaining directions. -/
def Game.dfs_loop (g : Game)
    (descend : ℤ → ℤ → List Sq → List Sq → List (List Sq) × List Sq)
    (row col : ℤ) (dirs : List Sq) :
    List Sq → List Sq → List (List Sq) × List Sq
  | [], bet => ([], bet)
  | (rdir, cdir) :: ds, bet =>
    if g.cell_with_opponent (row + rdir) (col + cdir) then
      if (row + rdir, col + cdir) ∈ bet then ([], bet)
      else
        let bet1 := (row + rdir, col + cdir) :: bet
        if g.empty_cell (row + rdir + rdir) (col + cdir + cdir) then
          let new_dirs := dirs.filter (fun d => ¬ (d.1 = -rdir ∧ d.2 = -cdir))
          let res := descend (row + rdir + rdir) (col + cdir + cdir) new_dirs bet1
          let here := if res.1.isEmpty then [[(row + rdir + rdir, col + cdir + cdir)]]
            else res.1.map (fun s => (row + rdir + rdir, col + cdir + cdir) :: s)
          let bet3 := res.2.erase (row + rdir + rdir - rdir, col + cdir + cdir - cdir)
          let rest := g.dfs_loop descend row col dirs ds bet3
          (here ++ rest.1, rest.2)
        else
          let bet3 := bet1.erase (row + rdir + rdir - rdir, col + cdir + cdir - cdir)
          g.dfs_loop descend row col dirs ds bet3
    else g.dfs_loop descend row col dirs ds bet

/-- Game._dfs_find_beat_steps with fuel making the recursion structural:
at fuel n+1 each recursive descent runs at fuel n.  The Python function
needs no fuel because every descent adds a fresh in-board square to bet;
the canonical entry point (get_beat_steps) passes more fuel than any
chain can consume. -/
def Game.dfs_find_beat_steps (g : Game) :
    ℕ → ℤ → ℤ → List Sq → List Sq → List (List Sq) × List Sq
  | 0, _, _, _, bet => ([], bet)
  | n + 1, row, col, dirs, bet =>
    g.dfs_loop (fun r c nd b => g.dfs_find_beat_steps n r c nd b) row col dirs dirs bet

/-- Game._find_not_beat_steps: one diagonal step into an empty cell, per
direction; IndexError is caught and the direction skipped. -/
def Game.find_not_beat_steps (g : Game) (row col : ℤ) (dirs : List Sq) :
    List (List Sq) :=
  dirs.filterMap (fun d =>
    match g.board.get_cell (row + d.1) (col + d.2) with
    | .error _ => none
    | .ok cell =>
      if cell = Cell.EMPTY then some [(row + d.1, col + d.2)] else none)

/-- Game._get_dirs: forward diagonals for men, all four diagonals for
queens, [] for an empty cell; the get_cell read can raise. -/
def Game.get_dirs (g : Game) (row col : ℤ) : Except Err (List Sq) := do
  let cell ← g.board.get_cell row col
  match cell with
  | Cell.BLACK => .ok [(1, -1), (1, 1)]
  | Cell.WHITE => .ok [(-1, -1), (-1, 1)]
  | Cell.BLACK_QUEEN => .ok [(-1, -1), (-1, 1), (1, -1), (1, 1)]
  | Cell.WHITE_QUEEN => .ok [(-1, -1), (-1, 1), (1, -1), (1, 1)]
  | Cell.EMPTY => .ok []

/-- Canonical fuel for the capture search: strictly more than the number
of board squares, hence more than any capture chain can be long. -/
def Game.dfsFuel (g : Game) : ℕ :=
  g.board.size * g.board.size + 1

/-- Game._get_beat_steps: the capture search from a square.  The Python
default argument bet=set() is a shared mutable set, but every call adds
and removes symmetrically (theorem dfs_find_beat_steps_bet below), so it
is always empty at a top-level call and is modelled as []. -/
def Game.get_beat_steps (g : Game) (row col : ℤ) : Except Err (List (List Sq)) := do
  let dirs ← g.get_dirs row col
  .ok (g.dfs_find_beat_steps g.dfsFuel row col dirs []).1

/-- Game._get_not_beat_steps. -/
def Game.get_not_beat_steps (g : Game) (row col : ℤ) : Except Err (List (List Sq)) := do
  let dirs ← g.get_dirs row col
  .ok (g.find_not_beat_steps row col dirs)

/-- Game._is_correct_cell_for_move: WrongMoveError for out-of-range
coordinates or a cell that does not hold a piece of the side to move;
the get_cell read itself can raise IndexError. -/
def Game.is_correct_cell_for_move (g : Game) (row col : ℤ) : Except Err Unit :=
  if ¬ (0 ≤ row ∧ row < (g.board.size : ℤ)) ∨ ¬ (0 ≤ col ∧ col < (g.board.size : ℤ)) then
    .error .wrongMove
  else do
    let cell ← g.board.get_cell row col
    if ¬ g.is_turns_checker cell then .error .wrongMove else .ok ()

/-- Game._get_beat_moves. -/
def Game.get_beat_moves (g : Game) (row col : ℤ) : Except Err (List Move) := do
  g.is_correct_cell_for_move row col
  let chains ← g.get_beat_steps row col
  .ok (chains.map (fun s => { start := (row, col), steps := s, index := 0 }))

/-- Game._get_not_beat_moves. -/
def Game.get_not_beat_moves (g : Game) (row col : ℤ) : Except Err (List Move) := do
  g.is_correct_cell_for_move row col
  let chains ← g.get_not_beat_steps row col
  .ok (chains.map (fun s => { start := (row, col), steps := s, index := 0 }))

/-- One double loop of Game.get_all_moves: accumulate the per-square
moves over all squares, swallowing WrongMoveError per square and
propagating any other error. -/
def Game.collectMoves (g : Game) (f : ℤ → ℤ → Except Err (List Move)) :
    Except Err (List Move) :=
  (List.range g.board.size).foldlM (fun acc row =>
    (List.range g.board.size).foldlM (fun acc2 col =>
      match f (row : ℕ) (col : ℕ) with
      | .error .wrongMove => .ok acc2
      | .error e => .error e
      | .ok ms => .ok (acc2 ++ ms)) acc) []

/-- Game.get_all_moves: all capture moves over the board; if that is
nonempty return it, otherwise collect the simple-step moves. -/
def Game.get_all_moves (g : Game) : Except Err (List Move) := do
  let beats ← g.collectMoves g.get_beat_moves
  if beats.isEmpty then g.collectMoves g.get_not_beat_moves
  else .ok beats

/-- Game._make_one_step_move: read steps[0] and the start cell, write
the destination, empty the start. -/
def Game.make_one_step_move (g : Game) (move : Move) : Except Err Game :=
  match move.steps.head? with
  | none => .error .indexError
  | some (row, col) => do
    let cell ← g.board.get_cell move.start.1 move.start.2
    let g1 ← g.set_cell row col cell
    g1.set_cell move.start.1 move.start.2 Cell.EMPTY

/-- Game._make_beat_move: read the start cell once, then for each step in
order (the Python for loop over the move's iterator) empty the midpoint
(prev + step) // 2, empty the previous square and write the moving piece
on the step square. -/
def Game.make_beat_move (g : Game) (move : Move) : Except Err Game := do
  let prev_cell ← g.board.get_cell move.start.1 move.start.2
  let res ← move.steps.foldlM (fun (acc : Game × Sq) step => do
    let g1 ← acc.1.set_cell ((acc.2.1 + step.1).fdiv 2) ((acc.2.2 + step.2).fdiv 2)
      Cell.EMPTY
    let g2 ← g1.set_cell acc.2.1 acc.2.2 Cell.EMPTY
    let g3 ← g2.set_cell step.1 step.2 prev_cell
    .ok (g3, step)) (g, move.start)
  .ok res.1

/-- Game._check_and_change_to_queen: promote on the last step square when
black reaches the last row or white reaches row 0 (steps[-1] raises on an
empty list). -/
def Game.check_and_change_to_queen (g : Game) (move : Move) : Except Err Game :=
  match move.steps.getLast? with
  | none => .error .indexError
  | some (last_row, last_col) =>
    if g.turn = .BLACK ∧ last_row = (g.board.size : ℤ) - 1 then
      g.set_cell last_row last_col Cell.BLACK_QUEEN
    else if g.turn = .WHITE ∧ last_row = 0 then
      g.set_cell last_row last_col Cell.WHITE_QUEEN
    else .ok g

/-- Game._update_state: Tie once the repetition counter reaches the
ceiling; else a win for the opponent of the (new) side to move when that
side has no legal moves; else the state is left unchanged. -/
def Game.update_state (g : Game) : Except Err Game :=
  if g.tie_counter ≥ g.tie_max then .ok { g with state := .TIE }
  else do
    let ms ← g.get_all_moves
    if ms.isEmpty then
      if g.turn = .BLACK then .ok { g with state := .WHITE_WON }
      else .ok { g with state := .BLACK_WON }
    else .ok g

/-- Game.make_move: increment the repetition counter and push a fresh
change frame; apply as a simple step when the move has exactly one step
at distance abs(max(dr, dc)) == 1, otherwise as a capture chain followed
by resetting the repetition counter; then promotion, turn flip and state
update. -/
def Game.make_move (g : Game) (move : Move) : Except Err Game := do
  let g0 := { g with tie_counter := g.tie_counter + 1
                     last_changes := [] :: g.last_changes }
  let g2 ← (match move.steps with
    | [st] =>
      if (max (st.1 - move.start.1) (st.2 - move.start.2)).natAbs = 1 then
        g0.make_one_step_move move
      else do
        let g1 ← g0.make_beat_move move
        .ok { g1 with tie_counter := 0 }
    | _ => do
      let g1 ← g0.make_beat_move move
      .ok { g1 with tie_counter := 0 })
  let g3 ← g2.check_and_change_to_queen move
  let g4 := { g3 with turn := g3.opponent }
  g4.update_state

/-- A simple step in the sense of the specification (section 3): a move
of chain length one whose destination is at Chebyshev distance 1 from
the start. -/
def Move.isSimpleStep (m : Move) : Bool :=
  match m.steps with
  | [st] => decide (max (st.1 - m.start.1).natAbs (st.2 - m.start.2).natAbs = 1)
  | _ => false

/-- The captured (jumped-over) squares of a chain, computed exactly as
make_beat_move computes them: the floor-midpoints of consecutive
positions, the start included. -/
def chainMids (start : Sq) (ch : List Sq) : List Sq :=
  List.zipWith (fun a b => ((a.1 + b.1).fdiv 2, (a.2 + b.2).fdiv 2)) (start :: ch) ch

/-- The displacement of each jump of a chain relative to the previous
position. -/
def chainDeltas (start : Sq) (ch : List Sq) : List Sq :=
  List.zipWith (fun a b => (b.1 - a.1, b.2 - a.2)) (start :: ch) ch

/-- Exact invariant of chains produced by the capture search from a
square with a given available-direction list and bet set: each jump uses
a direction of the current list over an adjacent opponent square not yet
bet, into an empty landing square, and continues with the direction list
filtered of the exact reverse and the bet set extended by the captured
square. -/
inductive Chained (g : Game) : ℤ → ℤ → List Sq → List Sq → List Sq → Prop where
  | nil (row col : ℤ) (dirs bet : List Sq) : Chained g row col dirs bet []
  | cons (row col rdir cdir : ℤ) (dirs bet : List Sq) (rest : List Sq) :
      (rdir, cdir) ∈ dirs →
      g.cell_with_opponent (row + rdir) (col + cdir) = true →
      (row + rdir, col + cdir) ∉ bet →
      g.empty_cell (row + rdir + rdir) (col + cdir + cdir) = true →
      Chained g (row + rdir + rdir) (col + cdir + cdir)
        (dirs.filter (fun d => ¬ (d.1 = -rdir ∧ d.2 = -cdir)))
        ((row + rdir, col + cdir) :: bet) rest →
      Chained g row col dirs bet ((row + rdir + rdir, col + cdir + cdir) :: rest)

/-- A sequence of Game._set_cell writes, each (row, col, value). -/
def Game.applyWrites : Game → List (ℤ × ℤ × Cell) → Except Err Game
  | g, [] => .ok g
  | g, (r, c, v) :: ws => do
    let g1 ← g.set_cell r c v
    g1.applyWrites ws

/-- The cell writes performed by Game._make_beat_move for a chain, in
order: for each hop, empty the midpoint, empty the previous square,
write the moving piece on the destination. -/
def beatWrites : Sq → Cell → List Sq → List (ℤ × ℤ × Cell)
  | _, _, [] => []
  | prev, pc, st :: rest =>
    ((prev.1 + st.1).fdiv 2, (prev.2 + st.2).fdiv 2, Cell.EMPTY)
      :: (prev.1, prev.2, Cell.EMPTY)
      :: (st.1, st.2, pc)
      :: beatWrites st pc rest

/-- Black occupancy of a cell value. -/
def isBcell (c : Cell) : Bool :=
  decide (c = Cell.BLACK ∨ c = Cell.BLACK_QUEEN)

/-- White occupancy of a cell value. -/
def isWcell (c : Cell) : Bool :=
  decide (c = Cell.WHITE ∨ c = Cell.WHITE_QUEEN)

/-- Counter weight of a cell value for a given occupancy predicate. -/
def cellWeight (p : Cell → Bool) (c : Cell) : ℤ :=
  if p c then 1 else 0

/-- Number of visible board cells (coordinates below size) whose value
satisfies p. -/
def Board.countP (b : Board) (p : Cell → Bool) : ℤ :=
  ∑ r ∈ Finset.range b.size, ∑ c ∈ Finset.range b.size,
    (if (match b.get_cell (r : ℕ) (c : ℕ) with
         | .ok cell => p cell
         | .error _ => false) then (1 : ℤ) else 0)

/-- Number of visible board cells holding exactly the value v. -/
def Board.countCell (b : Board) (v : Cell) : ℤ :=
  b.countP (fun c => decide (c = v))

/-- The counter invariant: black_count and white_count agree with the
number of board cells holding pieces of that colour. -/
def Game.countersOk (g : Game) : Prop :=
  g.board.countP isBcell = g.black_count ∧ g.board.countP isWcell = g.white_count

/-- Well-shaped backing storage: the 8 x 8 allocation made by
Board.__init__. -/
def shape8 (b : Board) : Prop :=
  b.cells.length = 8 ∧ ∀ r ∈ b.cells, r.length = 8

/-- Game states reachable from a freshly constructed game by legal moves
and undos. -/
inductive Reachable : Game → Prop where
  | init (size : ℕ) (g : Game) : Game.init size = .ok g → Reachable g
  | move (g : Game) (m : Move) (ms : List Move) (g' : Game) :
      Reachable g → g.get_all_moves = .ok ms → m ∈ ms →
      g.make_move m = .ok g' → Reachable g'
  | undo (g g' : Game) : Reachable g → g.undo = .ok g' → Reachable g'

/-- Placeholder board used only to strip the Except wrapper of
constructions that are known to succeed. -/
def junkBoard : Board :=
  { size := 0, cells := [] }

/-- Placeholder game used only to strip the Except wrapper of
constructions that are known to succeed. -/
def junkGame : Game :=
  { board := junkBoard, state := .UNFINISHED, turn := .BLACK, last_changes := [],
    black_count := 0, white_count := 0, tie_counter := 0, tie_max := 0 }

/-- The board built by Board(size), when construction succeeds. -/
def bInit (n : ℕ) : Board :=
  match Board.init n with
  | .ok b => b
  | .error _ => junkBoard

/-- The game built by Game(size), when construction succeeds. -/
def gInit (n : ℕ) : Game :=
  match Game.init n with
  | .ok g => g
  | .error _ => junkGame

/-- Modelled from the spec: the initial layout of section 3 (dark
squares of the top floor(N/2)-1+N%2 rows hold black men, dark squares of
rows floor(N/2)+1 .. N-1 hold white men, the rest empty), stated
independently of fill_initial for comparison with it. -/
def specInitialLayout (N r c : ℕ) : Cell :=
  if r % 2 ≠ c % 2 ∧ (r : ℤ) < ((N : ℤ).fdiv 2 - 1 + (N : ℤ) % 2) then Cell.BLACK
  else if r % 2 ≠ c % 2 ∧ N / 2 + 1 ≤ r then Cell.WHITE
  else Cell.EMPTY

/-- Modelled from the spec: the per-side initial piece count formula of
section 8, floor((floor(N/2) - 1 + N%2) * N/2). -/
def specInitialCount (N : ℕ) : ℤ :=
  ((((N : ℤ).fdiv 2 - 1 + (N : ℤ) % 2) * (N : ℤ)).fdiv 2)

/-- An empty 8 x 8 cell matrix (used by the concrete test scenarios of
the repository, mirrored here). -/
def emptyCells : List (List Cell) :=
  List.replicate 8 (List.replicate 8 Cell.EMPTY)

/-- Place pieces on the empty 8 x 8 matrix. -/
def placeAll (l : List (ℕ × ℕ × Cell)) : List (List Cell) :=
  l.foldl (fun cs e => cs.set e.1 ((cs.getD e.1 []).set e.2.1 e.2.2)) emptyCells

/-- A hand-built 8 x 8 position with black to move, as the repository's
test fixtures build them. -/
def mkFixture (l : List (ℕ × ℕ × Cell)) (wc : ℤ) : Game :=
  { board := { size := 8, cells := placeAll l },
    state := .UNFINISHED, turn := .BLACK, last_changes := [],
    black_count := 1, white_count := wc, tie_counter := 0, tie_max := 32 }

/-- The board of the section 8 scenario: a single black king at (4,1)
and white men on (1,2),(1,4),(1,6),(3,2),(3,4),(3,6),(5,2),(5,4),(5,6). -/
def g9 : Game := mkFixture
  [(1, 2, .WHITE), (1, 4, .WHITE), (1, 6, .WHITE),
   (3, 2, .WHITE), (3, 4, .WHITE), (3, 6, .WHITE),
   (5, 2, .WHITE), (5, 4, .WHITE), (5, 6, .WHITE),
   (4, 1, .BLACK_QUEEN)] 9

/-- The board of the repository test fixture B_can_bet_4
(tests/test_game_extra.py): white men on (1,4),(3,2),(3,4),(5,2),(5,4)
and a black queen at (4,1), black to move. -/
def gB4 : Game := mkFixture
  [(1, 4, .WHITE), (3, 2, .WHITE), (3, 4, .WHITE),
   (5, 2, .WHITE), (5, 4, .WHITE), (4, 1, .BLACK_QUEEN)] 5

/-- The capture chains found from (4,1) on the g9 board. -/
def c9Chains : List (List Sq) :=
  [[(2, 3), (0, 1)],
   [(2, 3), (0, 5), (2, 7)],
   [(2, 3), (4, 5), (2, 7)],
   [(2, 3), (4, 5), (6, 7)],
   [(6, 3), (4, 5), (2, 7)],
   [(6, 3), (4, 5), (6, 7)]]

/-- A longest capture move found on the g9 board: three captures. -/
def c9Move : Move :=
  { start := (4, 1), steps := [(2, 3), (4, 5), (2, 7)], index := 0 }

/-- Checks, over the g9 scenario board, that get_all_moves is nonempty
and that every returned move, once applied, leaves white pieces on the
board and does not end the game in a black win. -/
def c9Check : Bool :=
  match g9.get_all_moves with
  | .error _ => false
  | .ok ms => (¬ ms.isEmpty) && ms.all (fun m =>
      match g9.make_move m with
      | .error _ => false
      | .ok g => decide (g.white_count ≠ 0) && decide (g.state ≠ GameState.BLACK_WON))

/-- The four-capture cyclic chain that the repository test
test_B_can_bet_4 expects the engine to find on the gB4 board: each jump
direction differs from the reverse of the immediately preceding one. -/
def c4Chain : List Sq :=
  [(2, 3), (4, 5), (6, 3), (4, 1)]

/-- Checks, over the gB4 fixture board, that the capture search returns
no chain longer than two jumps (in particular not the expected
four-capture chain) and that every returned move leaves three white men,
where the repository test expects one. -/
def c4Check : Bool :=
  match gB4.get_all_moves with
  | .error _ => false
  | .ok ms => (¬ ms.isEmpty)
      && ms.all (fun m => decide (m.steps.length ≤ 2))
      && decide (∀ m ∈ ms, m.steps ≠ c4Chain)
      && ms.all (fun m =>
        match gB4.make_move m with
        | .error _ => false
        | .ok g => decide (g.white_count = 3))

/-- Make the first legal move of a fresh size-4 game, undo it, and
report the side to move before the move and after the undo. -/
def c2Run : Except Err (Color × Color) := do
  let g ← Game.init 4
  let ms ← g.get_all_moves
  match ms.head? with
  | none => .error .wrongMove
  | some m => do
    let g1 ← g.make_move m
    let g2 ← g1.undo
    .ok (g.turn, g2.turn)

/-- The move of the repository's move test: start (3,4), steps
(5,6) then (7,4). -/
def demoMove : Move :=
  { start := (3, 4), steps := [(5, 6), (7, 4)], index := 0 }

/-- Items produced by repeatedly calling next, up to the given fuel,
threading the shared object state. -/
def Move.collectFrom : Move → ℕ → List Sq
  | _, 0 => []
  | m, fuel + 1 =>
    match m.next with
    | (none, _) => []
    | (some x, m') => x :: m'.collectFrom fuel

/-- Two interleaved traversals of the same Move object, round robin:
start traversal one, read one item, start traversal two (which resets
the shared cursor), then alternate reads.  Returns the two item
sequences observed. -/
def interleaveTwo (m : Move) : List (Option Sq) × List (Option Sq) :=
  let s1 := m.iter
  let r1 := s1.next
  let s3 := r1.2.iter
  let r2 := s3.next
  let r3 := r2.2.next
  let r4 := r3.2.next
  ([r1.1, r3.1], [r2.1, r4.1])

/-- The first legal move of a fresh size-4 game, as the repository's
tests select it: start (0,1), step (1,0). -/
def m4first : Move :=
  { start := (0, 1), steps := [(1, 0)], index := 0 }

/-- The game state after applying m4first to a fresh size-4 game. -/
def g4post : Game :=
  match (gInit 4).make_move m4first with
  | .ok g => g
  | .error _ => junkGame

/-! Helper lemmas about lists and monadic folds. -/

theorem list_get_set_self {α : Type} :
    ∀ (l : List α) (n : ℕ) (a : α), n < l.length → (l.set n a).get? n = some a := by
  intro l
  induction l with
  | nil => intro n a h; simp at h
  | cons x xs ih =>
    intro n a h
    cases n with
    | zero => rfl
    | succ m => simpa using ih m a (by simpa using h)

theorem list_get_set_other {α : Type} :
    ∀ (l : List α) (n m : ℕ) (a : α), n ≠ m → (l.set n a).get? m = l.get? m := by
  intro l
  induction l with
  | nil => intro n m a _; rfl
  | cons x xs ih =>
    intro n m a h
    cases n with
    | zero =>
      cases m with
      | zero => exact absurd rfl h
      | succ k => rfl
    | succ j =>
      cases m with
      | zero => rfl
      | succ k => simpa using ih j k a (by intro hh; exact h (by rw [hh]))

theorem list_set_self {α : Type} :
    ∀ (l : List α) (n : ℕ) (a : α), l.get? n = some a → l.set n a = l := by
  intro l
  induction l with
  | nil => intro n a h; cases h
  | cons x xs ih =>
    intro n a h
    cases n with
    | zero => simp at h; simp [h]
    | succ m => exact congrArg (List.cons x) (ih m a h)

theorem list_set_set {α : Type} :
    ∀ (l : List α) (n : ℕ) (a b : α), (l.set n a).set n b = l.set n b := by
  intro l n a b
  simp

theorem list_get_mem {α : Type} :
    ∀ (l : List α) (n : ℕ) (a : α), l.get? n = some a → a ∈ l := by
  intro l
  induction l with
  | nil => intro n a h; cases h
  | cons x xs ih =>
    intro n a h
    cases n with
    | zero => simp at h; simp [h]
    | succ m => exact List.mem_cons_of_mem x (ih m a (by simpa using h))

theorem list_mem_set {α : Type} :
    ∀ (l : List α) (n : ℕ) (a x : α), x ∈ l.set n a → x ∈ l ∨ x = a := by
  intro l
  induction l with
  | nil => intro n a x h; cases h
  | cons y ys ih =>
    intro n a x h
    cases n with
    | zero =>
      rcases List.mem_cons.mp h with h1 | h1
      · exact Or.inr h1
      · exact Or.inl (List.mem_cons_of_mem y h1)
    | succ m =>
      rcases List.mem_cons.mp h with h1 | h1
      · exact Or.inl (by simp [h1])
      · rcases ih m a x h1 with h2 | h2
        · exact Or.inl (List.mem_cons_of_mem y h2)
        · exact Or.inr h2

theorem foldlM_ok_mem {α β : Type} (f : β → α → Except Err β) (P : β → Prop)
    (hP : ∀ b x b', P b → f b x = .ok b' → P b') :
    ∀ (l : List α) (b b' : β), P b → l.foldlM f b = .ok b' →
      P b' ∧ ∀ x ∈ l, ∃ b1 b2, P b1 ∧ f b1 x = .ok b2 := by
  intro l
  induction l with
  | nil =>
    intro b b' hb h
    have h2 : (Except.ok b : Except Err β) = Except.ok b' := h
    injection h2 with h3
    subst h3
    exact ⟨hb, by intro x hx; cases hx⟩
  | cons y ys ih =>
    intro b b' hb h
    have h0 : (f b y >>= fun b1 => ys.foldlM f b1) = .ok b' := h
    cases hf : f b y with
    | error e =>
      rw [hf] at h0
      cases h0
    | ok b1 =>
      rw [hf] at h0
      have h1 : ys.foldlM f b1 = .ok b' := h0
      have hb1 : P b1 := hP b y b1 hb hf
      obtain ⟨hb', hmem⟩ := ih b1 b' hb1 h1
      refine ⟨hb', ?_⟩
      intro x hx
      rcases List.mem_cons.mp hx with h2 | h2
      · exact ⟨b, b1, hb, by rw [h2]; exact hf⟩
      · exact hmem x h2

theorem foldlM_acc_mem {α : Type} (f : List Move → α → Except Err (List Move))
    (P : α → Move → Prop)
    (hf : ∀ acc x out, f acc x = .ok out → ∀ m ∈ out, m ∈ acc ∨ P x m) :
    ∀ (l : List α) (acc out : List Move), l.foldlM f acc = .ok out →
      ∀ m ∈ out, m ∈ acc ∨ ∃ x ∈ l, P x m := by
  intro l
  induction l with
  | nil =>
    intro acc out h m hm
    have h2 : (Except.ok acc : Except Err (List Move)) = Except.ok out := h
    injection h2 with h3
    subst h3
    exact Or.inl hm
  | cons y ys ih =>
    intro acc out h m hm
    have h0 : (f acc y >>= fun acc1 => ys.foldlM f acc1) = .ok out := h
    cases hf1 : f acc y with
    | error e =>
      rw [hf1] at h0
      cases h0
    | ok acc1 =>
      rw [hf1] at h0
      have h : ys.foldlM f acc1 = .ok out := h0
      rcases ih acc1 out h m hm with h1 | ⟨x, hx, hPx⟩
      · rcases hf acc y acc1 hf1 m h1 with h2 | h2
        · exact Or.inl h2
        · exact Or.inr ⟨y, List.mem_cons_self y ys, h2⟩
      · exact Or.inr ⟨x, List.mem_cons_of_mem y hx, hPx⟩

/-! Board accessor lemmas. -/

theorem list_get_lt {α : Type} {l : List α} {n : ℕ} {a : α}
    (h : l.get? n = some a) : n < l.length := by
  by_contra hn
  rw [List.get?_eq_none.mpr (by omega)] at h
  cases h

theorem rawSet_spec {b : Board} {row col : ℕ} {v : Cell} {b' : Board}
    (h : b.rawSet row col v = .ok b') :
    ∃ r, b.cells.get? row = some r ∧ col < r.length ∧
      b' = { b with cells := b.cells.set row (r.set col v) } := by
  unfold Board.rawSet at h
  split at h
  · cases h
  next r hr =>
    split at h
    · cases h
    next c0 hc =>
      injection h with h
      exact ⟨r, hr, list_get_lt hc, h.symm⟩

theorem get_cell_spec {b : Board} {row col : ℤ} {cell : Cell}
    (h : b.get_cell row col = .ok cell) :
    (0 ≤ row ∧ row < (b.size : ℤ) ∧ 0 ≤ col ∧ col < (b.size : ℤ)) ∧
      ∃ r, b.cells.get? row.toNat = some r ∧ r.get? col.toNat = some cell := by
  unfold Board.get_cell at h
  split at h
  case isTrue hb =>
    refine ⟨hb, ?_⟩
    split at h
    · cases h
    next r hr =>
      split at h
      · cases h
      next c0 hc =>
        injection h with h
        exact ⟨r, hr, by rw [hc, h]⟩
  case isFalse => cases h

theorem set_cell_spec {b : Board} {row col : ℤ} {v : Cell} {b' : Board}
    (h : b.set_cell row col v = .ok b') :
    (0 ≤ row ∧ row < (b.size : ℤ) ∧ 0 ≤ col ∧ col < (b.size : ℤ)) ∧
      ∃ r, b.cells.get? row.toNat = some r ∧ col.toNat < r.length ∧
        b' = { b with cells := b.cells.set row.toNat (r.set col.toNat v) } := by
  unfold Board.set_cell at h
  split at h
  case isFalse => cases h
  case isTrue hb => exact ⟨hb, rawSet_spec h⟩

theorem set_cell_size {b : Board} {row col : ℤ} {v : Cell} {b' : Board}
    (h : b.set_cell row col v = .ok b') : b'.size = b.size := by
  obtain ⟨_, r, _, _, hb'⟩ := set_cell_spec h
  rw [hb']

theorem get_cell_intro (b : Board) (row col : ℤ) (r : List Cell) (cell : Cell)
    (hb : 0 ≤ row ∧ row < (b.size : ℤ) ∧ 0 ≤ col ∧ col < (b.size : ℤ))
    (hr : b.cells.get? row.toNat = some r) (hc : r.get? col.toNat = some cell) :
    b.get_cell row col = .ok cell := by
  unfold Board.get_cell
  rw [if_pos hb]
  split
  next heq => rw [hr] at heq; cases heq
  next r2 heq =>
    rw [hr] at heq
    injection heq with heq
    subst heq
    split
    next heq2 => rw [hc] at heq2; cases heq2
    next c2 heq2 =>
      rw [hc] at heq2
      injection heq2 with heq2
      rw [heq2]

theorem get_cell_err_intro (b : Board) (row col : ℤ) (r : List Cell)
    (hb : 0 ≤ row ∧ row < (b.size : ℤ) ∧ 0 ≤ col ∧ col < (b.size : ℤ))
    (hr : b.cells.get? row.toNat = some r) (hc : r.get? col.toNat = none) :
    b.get_cell row col = .error .indexError := by
  unfold Board.get_cell
  rw [if_pos hb]
  split
  next heq => rfl
  next r2 heq =>
    rw [hr] at heq
    injection heq with heq
    subst heq
    split
    next heq2 => rfl
    next c2 heq2 => rw [hc] at heq2; cases heq2

theorem set_cell_intro (b : Board) (row col : ℤ) (r : List Cell) (v : Cell)
    (hb : 0 ≤ row ∧ row < (b.size : ℤ) ∧ 0 ≤ col ∧ col < (b.size : ℤ))
    (hr : b.cells.get? row.toNat = some r) (hc : col.toNat < r.length) :
    b.set_cell row col v
      = .ok { b with cells := b.cells.set row.toNat (r.set col.toNat v) } := by
  unfold Board.set_cell Board.rawSet
  rw [if_pos hb]
  split
  next heq => rw [hr] at heq; cases heq
  next r2 heq =>
    rw [hr] at heq
    injection heq with heq
    subst heq
    split
    next heq2 =>
      have := List.get?_eq_none.mp heq2
      omega
    next c0 heq2 => rfl

theorem get_after_set_same {b : Board} {row col : ℤ} {v : Cell} {b' : Board}
    (h : b.set_cell row col v = .ok b') : b'.get_cell row col = .ok v := by
  obtain ⟨hb, r, hr, hc, hb'⟩ := set_cell_spec h
  subst hb'
  exact get_cell_intro _ _ _ _ _ hb (list_get_set_self _ _ _ (list_get_lt hr))
    (list_get_set_self _ _ _ hc)

theorem get_before_set {b : Board} {row col : ℤ} {v : Cell} {b' : Board}
    (h : b.set_cell row col v = .ok b') : ∃ prev, b.get_cell row col = .ok prev := by
  obtain ⟨hb, r, hr, hc, _⟩ := set_cell_spec h
  exact ⟨r.get ⟨col.toNat, hc⟩, get_cell_intro _ _ _ _ _ hb hr (List.get?_eq_get hc)⟩

theorem get_after_set_other {b : Board} {row col r' c' : ℤ} {v : Cell} {b' : Board}
    (h : b.set_cell row col v = .ok b') (hne : ¬ (r' = row ∧ c' = col)) :
    b'.get_cell r' c' = b.get_cell r' c' := by
  obtain ⟨hb, r, hr, hc, hb'⟩ := set_cell_spec h
  subst hb'
  by_cases hin : 0 ≤ r' ∧ r' < (b.size : ℤ) ∧ 0 ≤ c' ∧ c' < (b.size : ℤ)
  · by_cases hrr : r' = row
    · subst hrr
      have hcc : c'.toNat ≠ col.toNat := by
        intro hx
        exact hne ⟨rfl, by omega⟩
      have hscr : (r.set col.toNat v).get? c'.toNat = r.get? c'.toNat :=
        list_get_set_other _ _ _ _ (fun hy => hcc hy.symm)
      cases hcv : r.get? c'.toNat with
      | none =>
        rw [get_cell_err_intro { b with cells := b.cells.set r'.toNat (r.set col.toNat v) }
          r' c' (r.set col.toNat v) hin (list_get_set_self _ _ _ (list_get_lt hr))
          (by rw [hscr, hcv])]
        rw [get_cell_err_intro b r' c' r hin hr hcv]
      | some c0 =>
        rw [get_cell_intro { b with cells := b.cells.set r'.toNat (r.set col.toNat v) }
          r' c' (r.set col.toNat v) c0 hin (list_get_set_self _ _ _ (list_get_lt hr))
          (by rw [hscr, hcv])]
        rw [get_cell_intro b r' c' r c0 hin hr hcv]
    · have hscr : (b.cells.set row.toNat (r.set col.toNat v)).get? r'.toNat
          = b.cells.get? r'.toNat := by
        apply list_get_set_other
        omega
      unfold Board.get_cell
      rw [if_pos hin, if_pos hin, hscr]
  · unfold Board.get_cell
    rw [if_neg hin, if_neg hin]

theorem set_roundtrip {b : Board} {row col : ℤ} {prev v : Cell} {b1 : Board}
    (hget : b.get_cell row col = .ok prev)
    (hset : b.set_cell row col v = .ok b1) :
    b1.set_cell row col prev = .ok b := by
  obtain ⟨hb, r, hr, hc, hb1⟩ := set_cell_spec hset
  obtain ⟨_, r2, hr2, hc2⟩ := get_cell_spec hget
  rw [hr] at hr2
  injection hr2 with hr2
  subst hr2
  subst hb1
  have hstep := set_cell_intro { b with cells := b.cells.set row.toNat (r.set col.toNat v) }
    row col (r.set col.toNat v) prev hb
    (list_get_set_self _ _ _ (list_get_lt hr)) (by simpa using hc)
  rw [hstep]
  have h1 : (r.set col.toNat v).set col.toNat prev = r := by
    rw [list_set_set]
    exact list_set_self r col.toNat prev hc2
  have h2 : (b.cells.set row.toNat (r.set col.toNat v)).set row.toNat
      ((r.set col.toNat v).set col.toNat prev) = b.cells := by
    rw [h1, list_set_set]
    exact list_set_self b.cells row.toNat r hr
  simp only [h2]

/-! Game cell-write lemmas. -/

theorem ok_bind {α β : Type} (a : α) (k : α → Except Err β) :
    (Except.ok a >>= k) = k a := rfl

theorem error_bind {α β : Type} (e : Err) (k : α → Except Err β) :
    ((Except.error e : Except Err α) >>= k) = .error e := rfl

theorem update_counters_fields (g : Game) (prev v : Cell) :
    (g.update_checkers_counters prev v).board = g.board ∧
    (g.update_checkers_counters prev v).state = g.state ∧
    (g.update_checkers_counters prev v).turn = g.turn ∧
    (g.update_checkers_counters prev v).last_changes = g.last_changes ∧
    (g.update_checkers_counters prev v).tie_counter = g.tie_counter ∧
    (g.update_checkers_counters prev v).tie_max = g.tie_max ∧
    (g.update_checkers_counters prev v).black_count
      = g.black_count - cellWeight isBcell prev + cellWeight isBcell v ∧
    (g.update_checkers_counters prev v).white_count
      = g.white_count - cellWeight isWcell prev + cellWeight isWcell v := by
  cases prev <;> cases v <;>
    simp [Game.update_checkers_counters, cellWeight, isBcell, isWcell]

theorem game_set_cell_spec {g : Game} {row col : ℤ} {v : Cell} {g' : Game}
    (h : g.set_cell row col v = .ok g') :
    ∃ prev b' top rest,
      g.board.get_cell row col = .ok prev ∧
      g.board.set_cell row col v = .ok b' ∧
      g.last_changes = top :: rest ∧
      g'.board = b' ∧
      g'.last_changes = (top ++ [(row, col, prev)]) :: rest ∧
      g'.turn = g.turn ∧ g'.state = g.state ∧ g'.tie_counter = g.tie_counter ∧
      g'.tie_max = g.tie_max ∧
      g'.black_count = g.black_count - cellWeight isBcell prev + cellWeight isBcell v ∧
      g'.white_count = g.white_count - cellWeight isWcell prev + cellWeight isWcell v := by
  unfold Game.set_cell at h
  cases hget : g.board.get_cell row col with
  | error e =>
    rw [hget] at h
    simp only [error_bind] at h
    cases h
  | ok prev =>
    rw [hget] at h
    simp only [ok_bind] at h
    cases hlc : g.last_changes with
    | nil =>
      rw [hlc] at h
      cases h
    | cons top rest =>
      rw [hlc] at h
      cases hset : g.board.set_cell row col v with
      | error e =>
        rw [hset] at h
        simp only [error_bind] at h
        cases h
      | ok b' =>
        rw [hset] at h
        simp only [ok_bind] at h
        injection h with h
        subst h
        obtain ⟨f1, f2, f3, f4, f5, f6, f7, f8⟩ := update_counters_fields
          { g with board := b', last_changes := (top ++ [(row, col, prev)]) :: rest } prev v
        exact ⟨prev, b', top, rest, rfl, rfl, rfl, f1, f4, f3, f2, f5, f6, f7, f8⟩

theorem set_cell_undo_intro {h : Game} {row col : ℤ} {w cur : Cell} {b' : Board}
    (hget : h.board.get_cell row col = .ok cur)
    (hset : h.board.set_cell row col w = .ok b') :
    ∃ h', h.set_cell_undo row col w = .ok h' ∧ h'.board = b' ∧
      h'.turn = h.turn ∧ h'.state = h.state ∧ h'.last_changes = h.last_changes ∧
      h'.tie_max = h.tie_max ∧
      h'.black_count = h.black_count - cellWeight isBcell cur + cellWeight isBcell w ∧
      h'.white_count = h.white_count - cellWeight isWcell cur + cellWeight isWcell w := by
  unfold Game.set_cell_undo
  rw [hget]
  simp only [ok_bind]
  by_cases htie : h.tie_counter > 0
  · rw [if_pos htie]
    rw [show ({ h with tie_counter := h.tie_counter - 1 } : Game).board = h.board from rfl]
    rw [hset]
    simp only [ok_bind]
    obtain ⟨f1, f2, f3, f4, f5, f6, f7, f8⟩ := update_counters_fields
      { h with tie_counter := h.tie_counter - 1, board := b' } cur w
    exact ⟨_, rfl, f1, f3, f2, f4, f6, f7, f8⟩
  · rw [if_neg htie]
    rw [hset]
    simp only [ok_bind]
    obtain ⟨f1, f2, f3, f4, f5, f6, f7, f8⟩ := update_counters_fields
      { h with board := b' } cur w
    exact ⟨_, rfl, f1, f3, f2, f4, f6, f7, f8⟩

/-! Write sequences and their inversion by undo. -/

theorem applyWrites_fields :
    ∀ (ws : List (ℤ × ℤ × Cell)) (g g' : Game), Game.applyWrites g ws = .ok g' →
      g'.turn = g.turn ∧ g'.state = g.state ∧ g'.tie_counter = g.tie_counter ∧
      g'.tie_max = g.tie_max := by
  intro ws
  induction ws with
  | nil =>
    intro g g' h
    injection h with h
    subst h
    exact ⟨rfl, rfl, rfl, rfl⟩
  | cons w ws ih =>
    intro g g' h
    obtain ⟨r, c, v⟩ := w
    unfold Game.applyWrites at h
    cases hs : g.set_cell r c v with
    | error e => rw [hs] at h; cases h
    | ok g1 =>
      rw [hs] at h
      simp only [ok_bind] at h
      obtain ⟨p1, p2, p3, p4⟩ := ih g1 g' h
      obtain ⟨_, _, _, _, _, _, _, _, _, f6, f7, f8, f9, _, _⟩ := game_set_cell_spec hs
      exact ⟨p1.trans f6, p2.trans f7, p3.trans f8, p4.trans f9⟩

theorem undoLoop_append :
    ∀ (l1 l2 : List (ℤ × ℤ × Cell)) (g : Game),
      Game.undoLoop g (l1 ++ l2) = (Game.undoLoop g l1) >>= fun g1 => g1.undoLoop l2 := by
  intro l1
  induction l1 with
  | nil => intro l2 g; rfl
  | cons e l1 ih =>
    intro l2 g
    obtain ⟨r, c, v⟩ := e
    show (g.set_cell_undo r c v >>= fun g1 => g1.undoLoop (l1 ++ l2))
      = ((g.set_cell_undo r c v >>= fun g1 => g1.undoLoop l1) >>= fun g1 => g1.undoLoop l2)
    cases hs : g.set_cell_undo r c v with
    | error e2 => rfl
    | ok g1 => simp only [ok_bind]; exact ih l2 g1

theorem applyWrites_undo :
    ∀ (ws : List (ℤ × ℤ × Cell)) (g g' : Game), Game.applyWrites g ws = .ok g' →
      ∃ Δ, (∀ top rest, g.last_changes = top :: rest →
          g'.last_changes = (top ++ Δ) :: rest) ∧
        ∀ h : Game, h.board = g'.board → h.black_count = g'.black_count →
          h.white_count = g'.white_count →
          ∃ h', Game.undoLoop h Δ.reverse = .ok h' ∧
            h'.board = g.board ∧ h'.black_count = g.black_count ∧
            h'.white_count = g.white_count ∧ h'.turn = h.turn ∧ h'.state = h.state ∧
            h'.last_changes = h.last_changes ∧ h'.tie_max = h.tie_max := by
  intro ws
  induction ws with
  | nil =>
    intro g g' h
    injection h with h
    subst h
    refine ⟨[], by simp, ?_⟩
    intro h hb hbc hwc
    exact ⟨h, rfl, hb, hbc, hwc, rfl, rfl, rfl, rfl⟩
  | cons w ws ih =>
    intro g g' h
    obtain ⟨r, c, v⟩ := w
    unfold Game.applyWrites at h
    cases hs : g.set_cell r c v with
    | error e => rw [hs] at h; cases h
    | ok g1 =>
      rw [hs] at h
      simp only [ok_bind] at h
      obtain ⟨prev, b', top0, rest0, hget, hset, hlc, hb1, hlc1, _, _, _, _, hbc1, hwc1⟩ :=
        game_set_cell_spec hs
      obtain ⟨Δ, hframes, hundo⟩ := ih g1 g' h
      refine ⟨(r, c, prev) :: Δ, ?_, ?_⟩
      · intro top rest htr
        rw [htr] at hlc
        injection hlc with e1 e2
        subst e1
        subst e2
        have := hframes (top ++ [(r, c, prev)]) rest hlc1
        rw [this]
        simp
      · intro hh hb hbc hwc
        obtain ⟨h1, hrun, h1b, h1bc, h1wc, h1t, h1s, h1l, h1m⟩ := hundo hh hb hbc hwc
        have hget2 : h1.board.get_cell r c = .ok v := by
          rw [h1b, hb1]
          exact get_after_set_same hset
        have hset2 : h1.board.set_cell r c prev = .ok g.board := by
          rw [h1b, hb1]
          exact set_roundtrip hget hset
        obtain ⟨h2, hrun2, h2b, h2t, h2s, h2l, h2m, h2bc, h2wc⟩ :=
          set_cell_undo_intro hget2 hset2
        refine ⟨h2, ?_, h2b, ?_, ?_, h2t.trans h1t, h2s.trans h1s, h2l.trans h1l,
          h2m.trans h1m⟩
        · show Game.undoLoop hh (((r, c, prev) :: Δ).reverse) = .ok h2
          have : ((r, c, prev) :: Δ).reverse = Δ.reverse ++ [(r, c, prev)] := by simp
          rw [this, undoLoop_append, hrun]
          simp only [ok_bind]
          show (h1.set_cell_undo r c prev >>= fun g2 => g2.undoLoop []) = .ok h2
          rw [hrun2]
          rfl
        · rw [h2bc, h1bc, hbc1]
          ring
        · rw [h2wc, h1wc, hwc1]
          ring

/-! Decomposition of the move-application phases into write sequences. -/

theorem make_one_step_decomp {g : Game} {m : Move} {g' : Game}
    (h : g.make_one_step_move m = .ok g') :
    ∃ st cell, m.steps.head? = some st ∧
      g.board.get_cell m.start.1 m.start.2 = .ok cell ∧
      Game.applyWrites g [(st.1, st.2, cell), (m.start.1, m.start.2, Cell.EMPTY)]
        = .ok g' := by
  unfold Game.make_one_step_move at h
  cases hh : m.steps.head? with
  | none => rw [hh] at h; cases h
  | some st =>
    obtain ⟨a, b⟩ := st
    rw [hh] at h
    cases hget : g.board.get_cell m.start.1 m.start.2 with
    | error e => rw [hget] at h; simp only [error_bind] at h; cases h
    | ok cell =>
      rw [hget] at h
      simp only [ok_bind] at h
      cases hs1 : g.set_cell a b cell with
      | error e => rw [hs1] at h; simp only [error_bind] at h; cases h
      | ok g1 =>
        rw [hs1] at h
        simp only [ok_bind] at h
        refine ⟨(a, b), cell, rfl, rfl, ?_⟩
        show (g.set_cell a b cell >>= fun g1 =>
          Game.applyWrites g1 [(m.start.1, m.start.2, Cell.EMPTY)]) = .ok g'
        rw [hs1]
        simp only [ok_bind]
        show (g1.set_cell m.start.1 m.start.2 Cell.EMPTY >>= fun g2 =>
          Game.applyWrites g2 []) = .ok g'
        rw [h]
        rfl

theorem make_beat_loop_decomp (pc : Cell) :
    ∀ (steps : List Sq) (g0 : Game) (prev : Sq) (res : Game × Sq),
      (steps.foldlM (fun (acc : Game × Sq) step => do
        let g1 ← acc.1.set_cell ((acc.2.1 + step.1).fdiv 2) ((acc.2.2 + step.2).fdiv 2)
          Cell.EMPTY
        let g2 ← g1.set_cell acc.2.1 acc.2.2 Cell.EMPTY
        let g3 ← g2.set_cell step.1 step.2 pc
        .ok (g3, step)) (g0, prev)) = .ok res →
      Game.applyWrites g0 (beatWrites prev pc steps) = .ok res.1 := by
  intro steps
  induction steps with
  | nil =>
    intro g0 prev res h
    injection h with h
    subst h
    rfl
  | cons st rest ih =>
    intro g0 prev res h
    have h0 : ((do
        let g1 ← g0.set_cell ((prev.1 + st.1).fdiv 2) ((prev.2 + st.2).fdiv 2) Cell.EMPTY
        let g2 ← g1.set_cell prev.1 prev.2 Cell.EMPTY
        let g3 ← g2.set_cell st.1 st.2 pc
        .ok (g3, st)) >>= fun acc2 => rest.foldlM (fun (acc : Game × Sq) step => do
          let g1 ← acc.1.set_cell ((acc.2.1 + step.1).fdiv 2) ((acc.2.2 + step.2).fdiv 2)
            Cell.EMPTY
          let g2 ← g1.set_cell acc.2.1 acc.2.2 Cell.EMPTY
          let g3 ← g2.set_cell step.1 step.2 pc
          .ok (g3, step)) acc2) = .ok res := h
    cases hs1 : g0.set_cell ((prev.1 + st.1).fdiv 2) ((prev.2 + st.2).fdiv 2) Cell.EMPTY with
    | error e => rw [hs1] at h0; simp only [error_bind] at h0; cases h0
    | ok g1 =>
      rw [hs1] at h0
      simp only [ok_bind] at h0
      cases hs2 : g1.set_cell prev.1 prev.2 Cell.EMPTY with
      | error e => rw [hs2] at h0; simp only [error_bind] at h0; cases h0
      | ok g2 =>
        rw [hs2] at h0
        simp only [ok_bind] at h0
        cases hs3 : g2.set_cell st.1 st.2 pc with
        | error e => rw [hs3] at h0; simp only [error_bind] at h0; cases h0
        | ok g3 =>
          rw [hs3] at h0
          simp only [ok_bind] at h0
          show (g0.set_cell ((prev.1 + st.1).fdiv 2) ((prev.2 + st.2).fdiv 2) Cell.EMPTY
            >>= fun ga => Game.applyWrites ga ((prev.1, prev.2, Cell.EMPTY)
              :: (st.1, st.2, pc) :: beatWrites st pc rest)) = .ok res.1
          rw [hs1]
          simp only [ok_bind]
          show (g1.set_cell prev.1 prev.2 Cell.EMPTY >>= fun gb =>
            Game.applyWrites gb ((st.1, st.2, pc) :: beatWrites st pc rest)) = .ok res.1
          rw [hs2]
          simp only [ok_bind]
          show (g2.set_cell st.1 st.2 pc >>= fun gc =>
            Game.applyWrites gc (beatWrites st pc rest)) = .ok res.1
          rw [hs3]
          simp only [ok_bind]
          exact ih g3 st res h0

theorem make_beat_decomp {g : Game} {m : Move} {g' : Game}
    (h : g.make_beat_move m = .ok g') :
    ∃ pc, g.board.get_cell m.start.1 m.start.2 = .ok pc ∧
      Game.applyWrites g (beatWrites m.start pc m.steps) = .ok g' := by
  unfold Game.make_beat_move at h
  cases hget : g.board.get_cell m.start.1 m.start.2 with
  | error e => rw [hget] at h; simp only [error_bind] at h; cases h
  | ok pc =>
    rw [hget] at h
    simp only [ok_bind] at h
    cases hfold : (m.steps.foldlM (fun (acc : Game × Sq) step => do
        let g1 ← acc.1.set_cell ((acc.2.1 + step.1).fdiv 2) ((acc.2.2 + step.2).fdiv 2)
          Cell.EMPTY
        let g2 ← g1.set_cell acc.2.1 acc.2.2 Cell.EMPTY
        let g3 ← g2.set_cell step.1 step.2 pc
        .ok (g3, step)) (g, m.start)) with
    | error e => rw [hfold] at h; simp only [error_bind] at h; cases h
    | ok res =>
      rw [hfold] at h
      simp only [ok_bind] at h
      injection h with h
      subst h
      exact ⟨pc, rfl, make_beat_loop_decomp pc m.steps g m.start res hfold⟩

theorem queen_decomp {g : Game} {m : Move} {g' : Game}
    (h : g.check_and_change_to_queen m = .ok g') :
    ∃ ws, Game.applyWrites g ws = .ok g' := by
  unfold Game.check_and_change_to_queen at h
  cases hlast : m.steps.getLast? with
  | none => rw [hlast] at h; cases h
  | some lp =>
    obtain ⟨lr, lc⟩ := lp
    rw [hlast] at h
    have h2 : (if g.turn = Color.BLACK ∧ lr = (g.board.size : ℤ) - 1 then
        g.set_cell lr lc Cell.BLACK_QUEEN
      else if g.turn = Color.WHITE ∧ lr = 0 then
        g.set_cell lr lc Cell.WHITE_QUEEN
      else .ok g) = .ok g' := h
    split at h2
    · refine ⟨[(lr, lc, Cell.BLACK_QUEEN)], ?_⟩
      show (g.set_cell lr lc Cell.BLACK_QUEEN >>= fun g1 => Game.applyWrites g1 [])
        = .ok g'
      rw [h2]
      rfl
    · split at h2
      · refine ⟨[(lr, lc, Cell.WHITE_QUEEN)], ?_⟩
        show (g.set_cell lr lc Cell.WHITE_QUEEN >>= fun g1 => Game.applyWrites g1 [])
          = .ok g'
        rw [h2]
        rfl
      · injection h2 with h2
        subst h2
        exact ⟨[], rfl⟩

theorem update_state_spec {g g' : Game} (h : g.update_state = .ok g') :
    g'.board = g.board ∧ g'.turn = g.turn ∧ g'.last_changes = g.last_changes ∧
    g'.black_count = g.black_count ∧ g'.white_count = g.white_count ∧
    g'.tie_counter = g.tie_counter ∧ g'.tie_max = g.tie_max ∧
    (g.tie_counter ≥ g.tie_max → g'.state = .TIE) ∧
    (¬ g.tie_counter ≥ g.tie_max → ∃ ms, g.get_all_moves = .ok ms ∧
      (ms = [] → g'.state = (if g.turn = .BLACK then GameState.WHITE_WON
        else GameState.BLACK_WON)) ∧
      (ms ≠ [] → g'.state = g.state)) := by
  unfold Game.update_state at h
  split at h
  next htie =>
    injection h with h
    subst h
    exact ⟨rfl, rfl, rfl, rfl, rfl, rfl, rfl, fun _ => rfl, fun hcon => absurd htie hcon⟩
  next htie =>
    cases hms : g.get_all_moves with
    | error e => rw [hms] at h; simp only [error_bind] at h; cases h
    | ok ms =>
      rw [hms] at h
      simp only [ok_bind] at h
      cases ms with
      | nil =>
        by_cases hturn : g.turn = Color.BLACK
        · rw [if_pos hturn] at h
          simp only [List.isEmpty_nil, if_pos] at h
          injection h with h
          subst h
          exact ⟨rfl, rfl, rfl, rfl, rfl, rfl, rfl, fun hc => absurd hc htie,
            fun _ => ⟨[], rfl, fun _ => by rw [if_pos hturn], fun hc => absurd rfl hc⟩⟩
        · rw [if_neg hturn] at h
          simp only [List.isEmpty_nil, if_pos] at h
          injection h with h
          subst h
          exact ⟨rfl, rfl, rfl, rfl, rfl, rfl, rfl, fun hc => absurd hc htie,
            fun _ => ⟨[], rfl, fun _ => by rw [if_neg hturn], fun hc => absurd rfl hc⟩⟩
      | cons m0 ms0 =>
        simp only [List.isEmpty_cons, Bool.false_eq_true, if_false] at h
        injection h with h
        subst h
        exact ⟨rfl, rfl, rfl, rfl, rfl, rfl, rfl, fun hc => absurd hc htie,
          fun _ => ⟨m0 :: ms0, rfl, fun hc => (List.cons_ne_nil m0 ms0 hc).elim,
            fun _ => rfl⟩⟩

theorem make_move_decomp {g : Game} {m : Move} {g' : Game}
    (h : g.make_move m = .ok g') :
    ∃ (isStep : Bool) (ws1 ws2 : List (ℤ × ℤ × Cell)) (g2 g3 : Game),
      Game.applyWrites { g with tie_counter := g.tie_counter + 1,
                                last_changes := [] :: g.last_changes } ws1 = .ok g2 ∧
      Game.applyWrites (if isStep then g2 else { g2 with tie_counter := 0 }) ws2
        = .ok g3 ∧
      Game.update_state { g3 with turn := g3.opponent } = .ok g' ∧
      (isStep = true ↔ ∃ st, m.steps = [st]
        ∧ (max (st.1 - m.start.1) (st.2 - m.start.2)).natAbs = 1) := by
  unfold Game.make_move at h
  simp only [] at h
  cases hsteps : m.steps with
  | nil =>
    rw [hsteps] at h
    simp only [] at h
    cases hb : Game.make_beat_move { g with tie_counter := g.tie_counter + 1,
                                            last_changes := [] :: g.last_changes } m with
    | error e => rw [hb] at h; simp only [error_bind] at h; cases h
    | ok g1 =>
      rw [hb] at h
      simp only [ok_bind] at h
      cases hq : Game.check_and_change_to_queen { g1 with tie_counter := 0 } m with
      | error e => rw [hq] at h; simp only [error_bind] at h; cases h
      | ok g3 =>
        rw [hq] at h
        simp only [ok_bind] at h
        obtain ⟨pc, _, hw1⟩ := make_beat_decomp hb
        obtain ⟨ws2, hw2⟩ := queen_decomp hq
        refine ⟨false, _, ws2, g1, g3, hw1, hw2, h, ?_⟩
        constructor
        · intro hc; cases hc
        · rintro ⟨st, h1, _⟩
          simp at h1
  | cons st rest =>
    cases rest with
    | cons st2 rest2 =>
      rw [hsteps] at h
      simp only [] at h
      cases hb : Game.make_beat_move { g with tie_counter := g.tie_counter + 1,
                                              last_changes := [] :: g.last_changes } m with
      | error e => rw [hb] at h; simp only [error_bind] at h; cases h
      | ok g1 =>
        rw [hb] at h
        simp only [ok_bind] at h
        cases hq : Game.check_and_change_to_queen { g1 with tie_counter := 0 } m with
        | error e => rw [hq] at h; simp only [error_bind] at h; cases h
        | ok g3 =>
          rw [hq] at h
          simp only [ok_bind] at h
          obtain ⟨pc, _, hw1⟩ := make_beat_decomp hb
          obtain ⟨ws2, hw2⟩ := queen_decomp hq
          refine ⟨false, _, ws2, g1, g3, hw1, hw2, h, ?_⟩
          constructor
          · intro hc; cases hc
          · rintro ⟨st', h1, _⟩
            simp at h1
    | nil =>
      rw [hsteps] at h
      simp only [] at h
      by_cases hcond : (max (st.1 - m.start.1) (st.2 - m.start.2)).natAbs = 1
      · rw [if_pos hcond] at h
        cases hp : Game.make_one_step_move { g with tie_counter := g.tie_counter + 1,
                                                    last_changes := [] :: g.last_changes } m with
        | error e => rw [hp] at h; simp only [error_bind] at h; cases h
        | ok g2 =>
          rw [hp] at h
          simp only [ok_bind] at h
          cases hq : Game.check_and_change_to_queen g2 m with
          | error e => rw [hq] at h; simp only [error_bind] at h; cases h
          | ok g3 =>
            rw [hq] at h
            simp only [ok_bind] at h
            obtain ⟨st0, cell, _, _, hw1⟩ := make_one_step_decomp hp
            obtain ⟨ws2, hw2⟩ := queen_decomp hq
            exact ⟨true, _, ws2, g2, g3, hw1, hw2, h,
              ⟨fun _ => ⟨st, rfl, hcond⟩, fun _ => rfl⟩⟩
      · rw [if_neg hcond] at h
        cases hb : Game.make_beat_move { g with tie_counter := g.tie_counter + 1,
                                                last_changes := [] :: g.last_changes } m with
        | error e => rw [hb] at h; simp only [error_bind] at h; cases h
        | ok g1 =>
          rw [hb] at h
          simp only [ok_bind] at h
          cases hq : Game.check_and_change_to_queen { g1 with tie_counter := 0 } m with
          | error e => rw [hq] at h; simp only [error_bind] at h; cases h
          | ok g3 =>
            rw [hq] at h
            simp only [ok_bind] at h
            obtain ⟨pc, _, hw1⟩ := make_beat_decomp hb
            obtain ⟨ws2, hw2⟩ := queen_decomp hq
            refine ⟨false, _, ws2, g1, g3, hw1, hw2, h, ?_⟩
            constructor
            · intro hc; cases hc
            · rintro ⟨st', h1, h2⟩
              injection h1 with e1 _
              subst e1
              exact (hcond h2).elim

/-- C2 amended: undoing a just-made move restores the board cells, both
occupant counts and the change log, and sets the state to UNFINISHED;
the side to move however stays at its post-move value (undo never flips
turn), and tie_counter is not restored in general. -/
theorem make_move_undo_restores {g : Game} {m : Move} {g' : Game}
    (h : g.make_move m = .ok g') :
    ∃ g'', g'.undo = .ok g'' ∧
      g''.board = g.board ∧ g''.black_count = g.black_count ∧
      g''.white_count = g.white_count ∧ g''.turn = g'.turn ∧
      g''.state = GameState.UNFINISHED ∧ g''.last_changes = g.last_changes := by
  obtain ⟨isStep, ws1, ws2, g2, g3, hw1, hw2, hup, _⟩ := make_move_decomp h
  obtain ⟨Δ1, hf1, hu1⟩ := applyWrites_undo ws1 _ g2 hw1
  obtain ⟨Δ2, hf2, hu2⟩ := applyWrites_undo ws2 _ g3 hw2
  obtain ⟨sb, st', sl, sbc, swc, _, _, _, _⟩ := update_state_spec hup
  have hgb_board : (if isStep then g2 else { g2 with tie_counter := 0 }).board
      = g2.board := by cases isStep <;> simp
  have hgb_black : (if isStep then g2 else { g2 with tie_counter := 0 }).black_count
      = g2.black_count := by cases isStep <;> simp
  have hgb_white : (if isStep then g2 else { g2 with tie_counter := 0 }).white_count
      = g2.white_count := by cases isStep <;> simp
  have hgb_last : (if isStep then g2 else { g2 with tie_counter := 0 }).last_changes
      = g2.last_changes := by cases isStep <;> simp
  have hlc2 : g2.last_changes = Δ1 :: g.last_changes := by
    have := hf1 [] g.last_changes rfl
    simpa using this
  have hlc3 : g3.last_changes = (Δ1 ++ Δ2) :: g.last_changes := by
    have := hf2 Δ1 g.last_changes (by rw [hgb_last, hlc2])
    rw [this]
  have hlcg' : g'.last_changes = (Δ1 ++ Δ2) :: g.last_changes := by
    rw [sl]
    exact hlc3
  unfold Game.undo
  rw [hlcg']
  have hrun : ∃ g'', Game.undoLoop { g' with state := GameState.UNFINISHED,
                                             last_changes := g.last_changes }
      ((Δ1 ++ Δ2).reverse) = .ok g'' ∧
      g''.board = g.board ∧ g''.black_count = g.black_count ∧
      g''.white_count = g.white_count ∧ g''.turn = g'.turn ∧
      g''.state = GameState.UNFINISHED ∧ g''.last_changes = g.last_changes := by
    obtain ⟨h1, hrun2, h1b, h1bc, h1wc, h1t, h1s, h1l, h1m⟩ := hu2
      { g' with state := GameState.UNFINISHED, last_changes := g.last_changes }
      (by show g'.board = g3.board; rw [sb]) (by show g'.black_count = g3.black_count; rw [sbc])
      (by show g'.white_count = g3.white_count; rw [swc])
    obtain ⟨h2, hrun1, h2b, h2bc, h2wc, h2t, h2s, h2l, h2m⟩ := hu1 h1
      (by rw [h1b, hgb_board]) (by rw [h1bc, hgb_black]) (by rw [h1wc, hgb_white])
    refine ⟨h2, ?_, by rw [h2b], by rw [h2bc], by rw [h2wc], ?_, ?_, ?_⟩
    · rw [List.reverse_append, undoLoop_append, hrun2]
      simp only [ok_bind]
      exact hrun1
    · rw [h2t, h1t]
    · rw [h2s, h1s]
    · rw [h2l, h1l]
  obtain ⟨g'', hg1, hg2, hg3, hg4, hg5, hg6, hg7⟩ := hrun
  exact ⟨g'', hg1, hg2, hg3, hg4, hg5, hg6, hg7⟩

/-! Capture-search invariants. -/

theorem dfs_loop_bet (g : Game)
    (descend : ℤ → ℤ → List Sq → List Sq → List (List Sq) × List Sq)
    (hd : ∀ r c nd b, (descend r c nd b).2 = b) (row col : ℤ) (dirs : List Sq) :
    ∀ (rem : List Sq) (bet : List Sq),
      (g.dfs_loop descend row col dirs rem bet).2 = bet := by
  intro rem
  induction rem with
  | nil => intro bet; rfl
  | cons d ds ih =>
    intro bet
    obtain ⟨rdir, cdir⟩ := d
    have e1 : (row + rdir + rdir - rdir, col + cdir + cdir - cdir)
        = (row + rdir, col + cdir) := by
      rw [Prod.mk.injEq]
      constructor <;> ring
    simp only [Game.dfs_loop]
    split
    · split
      · rfl
      · split
        · simp only [hd, e1, List.erase_cons_head, ih]
        · simp only [hd, e1, List.erase_cons_head, ih]
    · exact ih bet

theorem dfs_bet (g : Game) : ∀ (n : ℕ) (row col : ℤ) (dirs bet : List Sq),
    (g.dfs_find_beat_steps n row col dirs bet).2 = bet := by
  intro n
  induction n with
  | zero => intro row col dirs bet; rfl
  | succ n ih =>
    intro row col dirs bet
    exact dfs_loop_bet g _ (fun r c nd b => ih r c nd b) row col dirs dirs bet

theorem dfs_loop_chained (g : Game)
    (descend : ℤ → ℤ → List Sq → List Sq → List (List Sq) × List Sq)
    (hdbet : ∀ r c nd b, (descend r c nd b).2 = b)
    (hdch : ∀ r c nd b ch, ch ∈ (descend r c nd b).1 → Chained g r c nd b ch ∧ ch ≠ [])
    (row col : ℤ) (dirs : List Sq) :
    ∀ (rem : List Sq) (bet : List Sq), rem ⊆ dirs →
      ∀ ch ∈ (g.dfs_loop descend row col dirs rem bet).1,
        Chained g row col dirs bet ch ∧ ch ≠ [] := by
  intro rem
  induction rem with
  | nil =>
    intro bet _ ch hch
    simp only [Game.dfs_loop] at hch
    cases hch
  | cons d ds ih =>
    intro bet hsub ch hch
    obtain ⟨rdir, cdir⟩ := d
    have hd_mem : (rdir, cdir) ∈ dirs := hsub (List.mem_cons_self _ _)
    have hds_sub : ds ⊆ dirs := (List.cons_subset.mp hsub).2
    have e1 : (row + rdir + rdir - rdir, col + cdir + cdir - cdir)
        = (row + rdir, col + cdir) := by
      rw [Prod.mk.injEq]
      constructor <;> ring
    simp only [Game.dfs_loop] at hch
    split at hch
    next hopp =>
      split at hch
      next hmem => cases hch
      next hmem =>
        split at hch
        next hemp =>
          simp only [hdbet, e1, List.erase_cons_head] at hch
          rcases List.mem_append.mp hch with hin | hin
          · by_cases hres : (descend (row + rdir + rdir) (col + cdir + cdir)
                (dirs.filter (fun d => ¬ (d.1 = -rdir ∧ d.2 = -cdir)))
                ((row + rdir, col + cdir) :: bet)).1.isEmpty
            · rw [if_pos hres] at hin
              rcases List.mem_cons.mp hin with hh | hh
              · subst hh
                refine ⟨Chained.cons row col rdir cdir dirs bet [] hd_mem hopp hmem hemp
                  (Chained.nil _ _ _ _), by intro hx; cases hx⟩
              · cases hh
            · rw [if_neg hres] at hin
              obtain ⟨s, hs, hmap⟩ := List.mem_map.mp hin
              obtain ⟨hch2, _⟩ := hdch _ _ _ _ s hs
              subst hmap
              exact ⟨Chained.cons row col rdir cdir dirs bet s hd_mem hopp hmem hemp hch2,
                by intro hx; cases hx⟩
          · exact ih bet hds_sub ch hin
        next hemp =>
          simp only [e1, List.erase_cons_head] at hch
          exact ih bet hds_sub ch hch
    next hopp => exact ih bet hds_sub ch hch

theorem dfs_chained (g : Game) : ∀ (n : ℕ) (row col : ℤ) (dirs bet : List Sq),
    ∀ ch ∈ (g.dfs_find_beat_steps n row col dirs bet).1,
      Chained g row col dirs bet ch ∧ ch ≠ [] := by
  intro n
  induction n with
  | zero =>
    intro row col dirs bet ch hch
    simp only [Game.dfs_find_beat_steps] at hch
    cases hch
  | succ n ih =>
    intro row col dirs bet ch hch
    exact dfs_loop_chained g _ (fun r c nd b => dfs_bet g n r c nd b)
      (fun r c nd b ch2 hch2 => ih r c nd b ch2 hch2) row col dirs dirs bet
      (List.Subset.refl dirs) ch hch

theorem chained_mids {g : Game} :
    ∀ {row col : ℤ} {dirs bet ch}, Chained g row col dirs bet ch →
      (∀ sq ∈ chainMids (row, col) ch, sq ∉ bet) ∧ (chainMids (row, col) ch).Nodup := by
  intro row col dirs bet ch hch
  induction hch with
  | nil => exact ⟨fun sq hsq => absurd hsq (List.not_mem_nil sq), List.nodup_nil⟩
  | cons row col rdir cdir dirs bet rest hmem hopp hnbet hemp hrest ih =>
    have e1 : (row + (row + rdir + rdir)).fdiv 2 = row + rdir := by
      rw [show row + (row + rdir + rdir) = 2 * (row + rdir) from by ring]
      exact Int.mul_fdiv_cancel_left _ (by norm_num)
    have e2 : (col + (col + cdir + cdir)).fdiv 2 = col + cdir := by
      rw [show col + (col + cdir + cdir) = 2 * (col + cdir) from by ring]
      exact Int.mul_fdiv_cancel_left _ (by norm_num)
    have hmid : chainMids (row, col) ((row + rdir + rdir, col + cdir + cdir) :: rest)
        = (row + rdir, col + cdir)
          :: chainMids (row + rdir + rdir, col + cdir + cdir) rest := by
      show ((row + (row + rdir + rdir)).fdiv 2, (col + (col + cdir + cdir)).fdiv 2)
        :: chainMids (row + rdir + rdir, col + cdir + cdir) rest = _
      rw [e1, e2]
    rw [hmid]
    obtain ⟨ihnb, ihnd⟩ := ih
    constructor
    · intro sq hsq hbet
      rcases List.mem_cons.mp hsq with h1 | h1
      · subst h1
        exact hnbet hbet
      · exact ihnb sq h1 (List.mem_cons_of_mem _ hbet)
    · refine List.Nodup.cons ?_ ihnd
      intro hmm
      exact ihnb _ hmm (List.mem_cons_self _ _)

theorem chained_deltas {g : Game} :
    ∀ {row col : ℤ} {dirs bet ch}, Chained g row col dirs bet ch →
      List.Chain' (fun d1 d2 : Sq => d2 ≠ (-d1.1, -d1.2)) (chainDeltas (row, col) ch) ∧
      ∀ δ ∈ chainDeltas (row, col) ch, ∃ d, d ∈ dirs ∧ δ = (d.1 + d.1, d.2 + d.2) := by
  intro row col dirs bet ch hch
  induction hch with
  | nil => exact ⟨List.chain'_nil, by intro δ hδ; cases hδ⟩
  | cons row col rdir cdir dirs bet rest hmem hopp hnbet hemp hrest ih =>
    have hdelta : chainDeltas (row, col) ((row + rdir + rdir, col + cdir + cdir) :: rest)
        = (rdir + rdir, cdir + cdir)
          :: chainDeltas (row + rdir + rdir, col + cdir + cdir) rest := by
      show (row + rdir + rdir - row, col + cdir + cdir - col)
        :: chainDeltas (row + rdir + rdir, col + cdir + cdir) rest = _
      rw [show row + rdir + rdir - row = rdir + rdir from by ring,
        show col + cdir + cdir - col = cdir + cdir from by ring]
    rw [hdelta]
    obtain ⟨ihch, ihmem⟩ := ih
    constructor
    · rw [List.chain'_cons']
      refine ⟨?_, ihch⟩
      intro b hb
      have hbmem : b ∈ chainDeltas (row + rdir + rdir, col + cdir + cdir) rest :=
        List.mem_of_mem_head? hb
      obtain ⟨d, hd, hdeq⟩ := ihmem b hbmem
      have hdfilter := List.mem_filter.mp hd
      intro hcontra
      have hdd : d.1 = -rdir ∧ d.2 = -cdir := by
        rw [hdeq] at hcontra
        have h1 : d.1 + d.1 = -(rdir + rdir) := congrArg Prod.fst hcontra
        have h2 : d.2 + d.2 = -(cdir + cdir) := congrArg Prod.snd hcontra
        constructor <;> omega
      have hneg := hdfilter.2
      simp only [decide_eq_true_eq] at hneg
      exact hneg hdd
    · intro δ hδ
      rcases List.mem_cons.mp hδ with h1 | h1
      · exact ⟨(rdir, cdir), hmem, by rw [h1]⟩
      · obtain ⟨d, hd, hdeq⟩ := ihmem δ h1
        exact ⟨d, List.mem_of_mem_filter hd, hdeq⟩

/-! Structure of the enumerated moves. -/

theorem collectMoves_mem {g : Game} {f : ℤ → ℤ → Except Err (List Move)} {out : List Move}
    (h : g.collectMoves f = .ok out) (m : Move) (hm : m ∈ out) :
    ∃ r c l, f r c = .ok l ∧ m ∈ l := by
  unfold Game.collectMoves at h
  have hstep : ∀ (row : ℕ) (acc2 : List Move) (col : ℕ) (out2 : List Move),
      (match f ((row : ℕ) : ℤ) ((col : ℕ) : ℤ) with
        | Except.error Err.wrongMove => Except.ok acc2
        | Except.error e => Except.error e
        | Except.ok ms => Except.ok (acc2 ++ ms)) = Except.ok out2 →
      ∀ m2 ∈ out2, m2 ∈ acc2 ∨ ∃ l, f ((row : ℕ) : ℤ) ((col : ℕ) : ℤ) = .ok l ∧ m2 ∈ l := by
    intro row acc2 col out2 hout2 m2 hm2
    cases hf2 : f ((row : ℕ) : ℤ) ((col : ℕ) : ℤ) with
    | ok ms =>
      rw [hf2] at hout2
      injection hout2 with hout2
      subst hout2
      rcases List.mem_append.mp hm2 with h1 | h1
      · exact Or.inl h1
      · exact Or.inr ⟨ms, rfl, h1⟩
    | error e =>
      cases e with
      | wrongMove =>
        rw [hf2] at hout2
        injection hout2 with hout2
        subst hout2
        exact Or.inl hm2
      | indexError =>
        rw [hf2] at hout2
        cases hout2
  have houter := foldlM_acc_mem
    (fun acc row => (List.range g.board.size).foldlM (fun acc2 col =>
      match f ((row : ℕ) : ℤ) ((col : ℕ) : ℤ) with
      | Except.error Err.wrongMove => Except.ok acc2
      | Except.error e => Except.error e
      | Except.ok ms => Except.ok (acc2 ++ ms)) acc)
    (fun row m2 => ∃ c l, f ((row : ℕ) : ℤ) ((c : ℕ) : ℤ) = .ok l ∧ m2 ∈ l)
    (fun acc row out2 hout2 m2 hm2 => by
      have hinner := foldlM_acc_mem
        (fun acc2 col => match f ((row : ℕ) : ℤ) ((col : ℕ) : ℤ) with
          | Except.error Err.wrongMove => Except.ok acc2
          | Except.error e => Except.error e
          | Except.ok ms => Except.ok (acc2 ++ ms))
        (fun col m3 => ∃ l, f ((row : ℕ) : ℤ) ((col : ℕ) : ℤ) = .ok l ∧ m3 ∈ l)
        (fun acc2 col out3 hout3 m3 hm3 => hstep row acc2 col out3 hout3 m3 hm3)
        (List.range g.board.size) acc out2 hout2 m2 hm2
      rcases hinner with h1 | ⟨c, _, l, hl, hml⟩
      · exact Or.inl h1
      · exact Or.inr ⟨c, l, hl, hml⟩)
    (List.range g.board.size) [] out h m hm
  rcases houter with h1 | ⟨row, _, c, l, hl, hml⟩
  · cases h1
  · exact ⟨((row : ℕ) : ℤ), ((c : ℕ) : ℤ), l, hl, hml⟩

theorem get_beat_moves_struct {g : Game} {row col : ℤ} {l : List Move}
    (h : g.get_beat_moves row col = .ok l) :
    ∃ chains, g.get_beat_steps row col = .ok chains ∧
      l = chains.map (fun s => ({ start := (row, col), steps := s, index := 0 } : Move)) := by
  unfold Game.get_beat_moves at h
  cases hcorr : g.is_correct_cell_for_move row col with
  | error e => rw [hcorr] at h; simp only [error_bind] at h; cases h
  | ok u =>
    rw [hcorr] at h
    simp only [ok_bind] at h
    cases hsteps : g.get_beat_steps row col with
    | error e => rw [hsteps] at h; simp only [error_bind] at h; cases h
    | ok chains =>
      rw [hsteps] at h
      simp only [ok_bind] at h
      injection h with h
      exact ⟨chains, rfl, h.symm⟩

theorem get_not_beat_moves_struct {g : Game} {row col : ℤ} {l : List Move}
    (h : g.get_not_beat_moves row col = .ok l) :
    ∃ chains, g.get_not_beat_steps row col = .ok chains ∧
      l = chains.map (fun s => ({ start := (row, col), steps := s, index := 0 } : Move)) := by
  unfold Game.get_not_beat_moves at h
  cases hcorr : g.is_correct_cell_for_move row col with
  | error e => rw [hcorr] at h; simp only [error_bind] at h; cases h
  | ok u =>
    rw [hcorr] at h
    simp only [ok_bind] at h
    cases hsteps : g.get_not_beat_steps row col with
    | error e => rw [hsteps] at h; simp only [error_bind] at h; cases h
    | ok chains =>
      rw [hsteps] at h
      simp only [ok_bind] at h
      injection h with h
      exact ⟨chains, rfl, h.symm⟩

theorem get_dirs_units {g : Game} {row col : ℤ} {dirs : List Sq}
    (h : g.get_dirs row col = .ok dirs) :
    ∀ d ∈ dirs, (d.1 = 1 ∨ d.1 = -1) ∧ (d.2 = 1 ∨ d.2 = -1) := by
  unfold Game.get_dirs at h
  cases hc : g.board.get_cell row col with
  | error e => rw [hc] at h; simp only [error_bind] at h; cases h
  | ok cell =>
    rw [hc] at h
    simp only [ok_bind] at h
    cases cell <;>
      (injection h with h2; subst h2; intro d hd; fin_cases hd) <;>
      norm_num

theorem get_beat_steps_struct {g : Game} {row col : ℤ} {chains : List (List Sq)}
    (h : g.get_beat_steps row col = .ok chains) :
    ∃ dirs, g.get_dirs row col = .ok dirs ∧
      ∀ ch ∈ chains, Chained g row col dirs [] ch ∧ ch ≠ [] := by
  unfold Game.get_beat_steps at h
  cases hd : g.get_dirs row col with
  | error e => rw [hd] at h; simp only [error_bind] at h; cases h
  | ok dirs =>
    rw [hd] at h
    simp only [ok_bind] at h
    injection h with h
    subst h
    exact ⟨dirs, rfl, fun ch hch => dfs_chained g _ row col dirs [] ch hch⟩

theorem chained_head_shape {g : Game} {row col : ℤ} {dirs bet : List Sq} {ch : List Sq}
    (hch : Chained g row col dirs bet ch) (hne : ch ≠ [])
    (hunits : ∀ d ∈ dirs, (d.1 = 1 ∨ d.1 = -1) ∧ (d.2 = 1 ∨ d.2 = -1)) :
    ∃ st rest, ch = st :: rest ∧
      (st.1 - row = 2 ∨ st.1 - row = -2) ∧ (st.2 - col = 2 ∨ st.2 - col = -2) := by
  cases hch with
  | nil => exact absurd rfl hne
  | cons row col rdir cdir dirs bet rest hmem hopp hnbet hemp hrest =>
    obtain ⟨hr, hc⟩ := hunits (rdir, cdir) hmem
    refine ⟨(row + rdir + rdir, col + cdir + cdir), rest, rfl, ?_, ?_⟩
    · simp only at hr
      rcases hr with h1 | h1 <;> rw [h1] <;> omega
    · simp only at hc
      rcases hc with h1 | h1 <;> rw [h1] <;> omega

theorem find_not_beat_struct {g : Game} {row col : ℤ} {dirs : List Sq} :
    ∀ s ∈ g.find_not_beat_steps row col dirs, ∃ d ∈ dirs, s = [(row + d.1, col + d.2)] := by
  intro s hs
  unfold Game.find_not_beat_steps at hs
  obtain ⟨d, hd, heq⟩ := List.mem_filterMap.mp hs
  refine ⟨d, hd, ?_⟩
  cases hc : g.board.get_cell (row + d.1) (col + d.2) with
  | error e => rw [hc] at heq; cases heq
  | ok cell =>
    rw [hc] at heq
    have heq2 : (if cell = Cell.EMPTY then some [(row + d.1, col + d.2)] else none)
        = some s := heq
    split at heq2
    · injection heq2 with heq2
      exact heq2.symm
    · cases heq2

theorem beat_moves_all_shape {g : Game} {ms : List Move}
    (h : g.collectMoves g.get_beat_moves = .ok ms) :
    ∀ m ∈ ms, ∃ st rest, m.steps = st :: rest ∧
      (st.1 - m.start.1 = 2 ∨ st.1 - m.start.1 = -2) ∧
      (st.2 - m.start.2 = 2 ∨ st.2 - m.start.2 = -2) := by
  intro m hm
  obtain ⟨r, c, l, hl, hml⟩ := collectMoves_mem h m hm
  obtain ⟨chains, hch, hmap⟩ := get_beat_moves_struct hl
  subst hmap
  obtain ⟨s, hs, hms⟩ := List.mem_map.mp hml
  obtain ⟨dirs, hdirs, hall⟩ := get_beat_steps_struct hch
  obtain ⟨hchained, hne⟩ := hall s hs
  obtain ⟨st, rest, hcons, hshape1, hshape2⟩ :=
    chained_head_shape hchained hne (get_dirs_units hdirs)
  subst hms
  exact ⟨st, rest, by rw [show ({ start := (r, c), steps := s, index := 0 } : Move).steps
    = s from rfl, hcons], hshape1, hshape2⟩

theorem step_moves_all_shape {g : Game} {ms : List Move}
    (h : g.collectMoves g.get_not_beat_moves = .ok ms) :
    ∀ m ∈ ms, ∃ st, m.steps = [st] ∧
      (st.1 - m.start.1 = 1 ∨ st.1 - m.start.1 = -1) ∧
      (st.2 - m.start.2 = 1 ∨ st.2 - m.start.2 = -1) := by
  intro m hm
  obtain ⟨r, c, l, hl, hml⟩ := collectMoves_mem h m hm
  obtain ⟨chains, hch, hmap⟩ := get_not_beat_moves_struct hl
  subst hmap
  obtain ⟨s, hs, hms⟩ := List.mem_map.mp hml
  unfold Game.get_not_beat_steps at hch
  cases hd : g.get_dirs r c with
  | error e => rw [hd] at hch; simp only [error_bind] at hch; cases hch
  | ok dirs =>
    rw [hd] at hch
    simp only [ok_bind] at hch
    injection hch with hch
    subst hch
    obtain ⟨d, hdm, hseq⟩ := find_not_beat_struct s hs
    obtain ⟨hu1, hu2⟩ := get_dirs_units hd d hdm
    subst hms
    refine ⟨(r + d.1, c + d.2), by rw [show ({ start := (r, c), steps := s, index := 0 }
      : Move).steps = s from rfl, hseq], ?_, ?_⟩
    · rcases hu1 with h1 | h1 <;> rw [show (r + d.1, c + d.2).1 - r = d.1 from by
        simp] <;> omega
    · rcases hu2 with h1 | h1 <;> rw [show (r + d.1, c + d.2).2 - c = d.2 from by
        simp] <;> omega

theorem shape_not_simple {m : Move} {st : Sq} {rest : List Sq}
    (hsteps : m.steps = st :: rest)
    (h1 : st.1 - m.start.1 = 2 ∨ st.1 - m.start.1 = -2)
    (h2 : st.2 - m.start.2 = 2 ∨ st.2 - m.start.2 = -2) :
    m.isSimpleStep = false := by
  unfold Move.isSimpleStep
  rw [hsteps]
  cases rest with
  | nil =>
    show decide (max (st.1 - m.start.1).natAbs (st.2 - m.start.2).natAbs = 1) = false
    rcases h1 with h1 | h1 <;> rcases h2 with h2 | h2 <;> rw [h1, h2] <;> decide
  | cons st2 rest2 => rfl

theorem shape_simple {m : Move} {st : Sq}
    (hsteps : m.steps = [st])
    (h1 : st.1 - m.start.1 = 1 ∨ st.1 - m.start.1 = -1)
    (h2 : st.2 - m.start.2 = 1 ∨ st.2 - m.start.2 = -1) :
    m.isSimpleStep = true := by
  unfold Move.isSimpleStep
  rw [hsteps]
  show decide (max (st.1 - m.start.1).natAbs (st.2 - m.start.2).natAbs = 1) = true
  rcases h1 with h1 | h1 <;> rcases h2 with h2 | h2 <;> rw [h1, h2] <;> decide

/-- C1: for every game state, when the capture collection is nonempty,
get_all_moves returns exactly it and every returned move is a capture
(no simple step appears); when no capture move exists, get_all_moves
returns exactly the simple-step collection and every returned move is a
simple step. -/
theorem forced_capture_invariant (g : Game) (ms bs : List Move)
    (hall : g.get_all_moves = .ok ms)
    (hbs : g.collectMoves g.get_beat_moves = .ok bs) :
    (bs ≠ [] → ms = bs ∧ ∀ m ∈ ms, m.isSimpleStep = false) ∧
    (bs = [] → g.collectMoves g.get_not_beat_moves = .ok ms ∧
      ∀ m ∈ ms, m.isSimpleStep = true) := by
  unfold Game.get_all_moves at hall
  rw [hbs] at hall
  simp only [ok_bind] at hall
  constructor
  · intro hne
    have hbe : bs.isEmpty = false := by
      cases bs with
      | nil => exact absurd rfl hne
      | cons b bs2 => rfl
    rw [hbe] at hall
    simp only [Bool.false_eq_true, if_false] at hall
    injection hall with hall
    subst hall
    refine ⟨rfl, ?_⟩
    intro m hm
    obtain ⟨st, rest, hsteps, h1, h2⟩ := beat_moves_all_shape hbs m hm
    exact shape_not_simple hsteps h1 h2
  · intro hbnil
    subst hbnil
    simp only [List.isEmpty_nil, if_true] at hall
    refine ⟨hall, ?_⟩
    intro m hm
    obtain ⟨st, hsteps, h1, h2⟩ := step_moves_all_shape hall m hm
    exact shape_simple hsteps h1 h2

/-- C3: every chain produced by the capture search has pairwise distinct
captured squares and never jumps in the exact reverse direction of the
immediately preceding jump. -/
theorem capture_chain_soundness (g : Game) (row col : ℤ) (chains : List (List Sq))
    (h : g.get_beat_steps row col = .ok chains) :
    ∀ ch ∈ chains, (chainMids (row, col) ch).Nodup ∧
      List.Chain' (fun d1 d2 : Sq => d2 ≠ (-d1.1, -d1.2)) (chainDeltas (row, col) ch) := by
  obtain ⟨dirs, hdirs, hall⟩ := get_beat_steps_struct h
  intro ch hch
  obtain ⟨hchained, hne⟩ := hall ch hch
  exact ⟨(chained_mids hchained).2, (chained_deltas hchained).1⟩

/-- Witness for C3 at the g9 scenario board: the capture search from
(4,1) returns the six concrete chains, and each satisfies the stated
properties. -/
theorem capture_chain_soundness_witness :
    g9.get_beat_steps 4 1 = .ok c9Chains ∧
    ((chainMids (4, 1) [(2, 3), (4, 5), (2, 7)]).Nodup ∧
      List.Chain' (fun d1 d2 : Sq => d2 ≠ (-d1.1, -d1.2))
        (chainDeltas (4, 1) [(2, 3), (4, 5), (2, 7)])) :=
  ⟨by decide, capture_chain_soundness g9 4 1 c9Chains (by decide)
    [(2, 3), (4, 5), (2, 7)] (by decide)⟩

/-- C4: evaluation of the capture search at the board of the
repository's own test fixture B_can_bet_4.  The test expects the
four-capture cyclic chain c4Chain (legal when only the immediate reverse
direction is excluded) and a resulting position with one white man; the
code removes reverse directions cumulatively down the chain, so it
returns only two-capture chains, never c4Chain, and every returned move
leaves three white men. -/
theorem direction_pruning_accumulates : c4Check = true := by decide

/-- C9 counterexample: on the section 8 scenario board (nine white men),
get_all_moves is nonempty and every returned move, applied with
make_move, leaves white pieces on the board and does not produce a black
win, contradicting the claimed outcome. -/
theorem scenario_no_black_win : c9Check = true := by decide

/-- C9 amended: on that board the designated capture move is the
three-capture chain (4,1) -> (2,3) -> (4,5) -> (2,7); it is among the
returned moves and applying it leaves exactly one black king, six white
men, and an unfinished game. -/
theorem scenario_three_captures :
    (g9.get_all_moves).map (fun ms => decide (c9Move ∈ ms)) = .ok true ∧
    (g9.make_move c9Move).map (fun g' => (g'.black_count, g'.white_count, g'.state,
        g'.board.countCell Cell.BLACK_QUEEN, g'.board.countCell Cell.BLACK))
      = .ok (1, 6, GameState.UNFINISHED, 1, 0) := by
  constructor
  · decide
  · decide

/-- C8 counterexample: two interleaved traversals of the move from the
repository's move test do not each yield the complete destination
sequence; the second traversal observes (5,6) and then exhaustion,
because the cursor is shared state on the Move object. -/
theorem move_iteration_interleaved :
    demoMove.steps = [(5, 6), (7, 4)] ∧
    (interleaveTwo demoMove).2 = [some (5, 6), none] := by decide

theorem collectFrom_drop :
    ∀ (fuel : ℕ) (m : Move), m.steps.length - m.index < fuel →
      m.collectFrom fuel = m.steps.drop m.index := by
  intro fuel
  induction fuel with
  | zero => intro m hm; omega
  | succ fuel ih =>
    intro m hm
    unfold Move.collectFrom Move.next
    by_cases hidx : m.index < m.steps.length
    · rw [dif_pos hidx]
      have hrec := ih { m with index := m.index + 1 } (by simp; omega)
      show m.steps.get ⟨m.index, hidx⟩
          :: Move.collectFrom { m with index := m.index + 1 } fuel
        = List.drop m.index m.steps
      rw [hrec]
      rw [List.drop_eq_getElem_cons hidx, List.get_eq_getElem]
    · rw [dif_neg hidx]
      rw [List.drop_eq_nil_of_le (by omega)]

/-- C8 amended: the iterator state is the shared index field on the Move
itself; Move.iter resets it to 0 and a single sequential traversal then
yields the complete destination sequence. -/
theorem move_iteration_amended (m : Move) :
    (m.iter).index = 0 ∧ Move.collectFrom m.iter (m.steps.length + 1) = m.steps := by
  refine ⟨rfl, ?_⟩
  have := collectFrom_drop (m.steps.length + 1) m.iter (by unfold Move.iter; simp)
  unfold Move.iter at this ⊢
  simpa using this

/-- C2 counterexample: from a fresh size-4 game, making the first legal
move and undoing it leaves the side to move at WHITE, not the original
BLACK: undo does not restore the side to move. -/
theorem undo_does_not_restore_turn :
    c2Run = .ok (Color.BLACK, Color.WHITE) := by decide

/-- C2 witness: the amended round trip at a concrete input: applying
m4first to a fresh size-4 game and undoing restores board, counts and
change log, leaves the state UNFINISHED and keeps the post-move side to
move. -/
theorem make_move_undo_restores_witness :
    ∃ g'', g4post.undo = .ok g'' ∧
      g''.board = (gInit 4).board ∧ g''.black_count = (gInit 4).black_count ∧
      g''.white_count = (gInit 4).white_count ∧ g''.turn = g4post.turn ∧
      g''.state = GameState.UNFINISHED ∧ g''.last_changes = (gInit 4).last_changes :=
  make_move_undo_restores (by decide : (gInit 4).make_move m4first = .ok g4post)

/-- C6 counterexample: constructing a board of size 9 raises IndexError
inside fill_initial, because the backing storage is always the 8 x 8
Board.SIZE allocation. -/
theorem board_init_9_fails : Board.init 9 = .error Err.indexError := by decide

/-- C7 counterexample: a default-constructed engine (size argument 0)
has an 8 x 8 board but tie_max = 0, not 32: tie_max is computed from the
constructor argument, not from the board size. -/
theorem default_tie_max_zero :
    (Game.init 0).map (fun g => (g.board.size, g.tie_max)) = .ok (8, 0) := by decide

/-! The move enumeration depends only on the board and the side to move:
congruence lemmas used to relate get_all_moves across state updates. -/

theorem cwo_congr {g1 g2 : Game} (hb : g1.board = g2.board) (ht : g1.turn = g2.turn) :
    g1.cell_with_opponent = g2.cell_with_opponent := by
  funext r c
  unfold Game.cell_with_opponent
  rw [hb, ht]

theorem empty_cell_congr {g1 g2 : Game} (hb : g1.board = g2.board) :
    g1.empty_cell = g2.empty_cell := by
  funext r c
  unfold Game.empty_cell
  rw [hb]

theorem dfs_loop_congr {g1 g2 : Game} (hb : g1.board = g2.board) (ht : g1.turn = g2.turn)
    {d1 d2 : ℤ → ℤ → List Sq → List Sq → List (List Sq) × List Sq} (hd : d1 = d2)
    (row col : ℤ) (dirs : List Sq) :
    ∀ (rem bet : List Sq),
      g1.dfs_loop d1 row col dirs rem bet = g2.dfs_loop d2 row col dirs rem bet := by
  subst hd
  intro rem
  induction rem with
  | nil => intro bet; rfl
  | cons d ds ih =>
    intro bet
    obtain ⟨rdir, cdir⟩ := d
    simp only [Game.dfs_loop, cwo_congr hb ht, empty_cell_congr hb, ih]

theorem dfs_congr {g1 g2 : Game} (hb : g1.board = g2.board) (ht : g1.turn = g2.turn) :
    ∀ (n : ℕ), g1.dfs_find_beat_steps n = g2.dfs_find_beat_steps n := by
  intro n
  induction n with
  | zero => rfl
  | succ n ih =>
    funext row col dirs bet
    show g1.dfs_loop (fun r c nd b => g1.dfs_find_beat_steps n r c nd b) row col dirs dirs bet
      = g2.dfs_loop (fun r c nd b => g2.dfs_find_beat_steps n r c nd b) row col dirs dirs bet
    exact dfs_loop_congr hb ht (by rw [ih]) row col dirs dirs bet

theorem get_all_moves_congr {g1 g2 : Game} (hb : g1.board = g2.board)
    (ht : g1.turn = g2.turn) : g1.get_all_moves = g2.get_all_moves := by
  have hdirs : g1.get_dirs = g2.get_dirs := by
    funext r c
    unfold Game.get_dirs
    rw [hb]
  have hbeats : g1.get_beat_steps = g2.get_beat_steps := by
    funext r c
    unfold Game.get_beat_steps Game.dfsFuel
    rw [hdirs, hb, dfs_congr hb ht]
  have hnbeats : g1.get_not_beat_steps = g2.get_not_beat_steps := by
    funext r c
    unfold Game.get_not_beat_steps Game.find_not_beat_steps
    rw [hdirs, hb]
  have hcorr : g1.is_correct_cell_for_move = g2.is_correct_cell_for_move := by
    funext r c
    unfold Game.is_correct_cell_for_move Game.is_turns_checker
    rw [hb, ht]
  have hbm : g1.get_beat_moves = g2.get_beat_moves := by
    funext r c
    unfold Game.get_beat_moves
    rw [hcorr, hbeats]
  have hnbm : g1.get_not_beat_moves = g2.get_not_beat_moves := by
    funext r c
    unfold Game.get_not_beat_moves
    rw [hcorr, hnbeats]
  unfold Game.get_all_moves Game.collectMoves
  rw [hb, hbm, hnbm]

/-- C5: applying a legal move from a non-terminal position resets the
repetition counter to 0 on a capture move and increments it by exactly 1
on a simple step; afterwards the state is Tie when the counter has
reached the ceiling, else a win for the side that just moved when the
new side to move has no legal moves, else Unfinished. -/
theorem tie_counter_and_state (g : Game) (m : Move) (ms : List Move) (g' : Game)
    (hstate : g.state = GameState.UNFINISHED)
    (hms : g.get_all_moves = .ok ms) (hmem : m ∈ ms)
    (h : g.make_move m = .ok g') :
    (m.isSimpleStep = true → g'.tie_counter = g.tie_counter + 1) ∧
    (m.isSimpleStep = false → g'.tie_counter = 0) ∧
    (g'.tie_counter ≥ g.tie_max → g'.state = GameState.TIE) ∧
    (g'.tie_counter < g.tie_max → ∀ ms', g'.get_all_moves = .ok ms' →
      (ms' = [] → g'.state = (if g.turn = Color.BLACK then GameState.BLACK_WON
        else GameState.WHITE_WON)) ∧
      (ms' ≠ [] → g'.state = GameState.UNFINISHED)) := by
  obtain ⟨isStep, ws1, ws2, g2, g3, hw1, hw2, hup, hiff⟩ := make_move_decomp h
  obtain ⟨ht1, hs1, hc1, hm1⟩ := applyWrites_fields ws1 _ g2 hw1
  obtain ⟨ht2, hs2, hc2, hm2⟩ := applyWrites_fields ws2 _ g3 hw2
  have ht1' : g2.turn = g.turn := ht1
  have hs1' : g2.state = g.state := hs1
  have hc1' : g2.tie_counter = g.tie_counter + 1 := hc1
  have hm1' : g2.tie_max = g.tie_max := hm1
  obtain ⟨ub, ut, ul, ubc, uwc, utc, utm, utie, uelse⟩ := update_state_spec hup
  -- classification of the move
  unfold Game.get_all_moves at hms
  cases hbs : g.collectMoves g.get_beat_moves with
  | error e => rw [hbs] at hms; simp only [error_bind] at hms; cases hms
  | ok bs =>
    rw [hbs] at hms
    simp only [ok_bind] at hms
    have hclass : (m.isSimpleStep = false ∧ isStep = false)
        ∨ (m.isSimpleStep = true ∧ isStep = true) := by
      cases bs with
      | cons b0 bs0 =>
        simp only [List.isEmpty_cons, Bool.false_eq_true, if_false] at hms
        injection hms with hms
        subst hms
        obtain ⟨st, rest, hsteps, hA, hB⟩ := beat_moves_all_shape hbs m hmem
        refine Or.inl ⟨shape_not_simple hsteps hA hB, ?_⟩
        cases hisv : isStep with
        | false => rfl
        | true =>
          obtain ⟨st', hst', hcond⟩ := hiff.mp hisv
          rw [hsteps] at hst'
          injection hst' with e1 e2
          subst e1
          rcases hA with hA | hA <;> rcases hB with hB | hB <;>
            rw [hA, hB] at hcond <;> norm_num at hcond
      | nil =>
        simp only [List.isEmpty_nil, if_true] at hms
        obtain ⟨st, hsteps, hA, hB⟩ := step_moves_all_shape hms m hmem
        refine Or.inr ⟨shape_simple hsteps hA hB, ?_⟩
        refine hiff.mpr ⟨st, hsteps, ?_⟩
        rcases hA with hA | hA <;> rcases hB with hB | hB <;> rw [hA, hB] <;> decide
    -- repetition counter value after the move
    have htie' : g'.tie_counter
        = (if isStep then g.tie_counter + 1 else 0) := by
      have h3 : g3.tie_counter
          = (if isStep then g2 else { g2 with tie_counter := 0 }).tie_counter := hc2
      have h4 : (if isStep then g2 else { g2 with tie_counter := 0 }).tie_counter
          = (if isStep then g.tie_counter + 1 else 0) := by
        cases isStep <;> simp [hc1']
      rw [utc]
      show g3.tie_counter = _
      rw [h3, h4]
    have hmax' : g'.tie_max = g.tie_max := by
      rw [utm]
      show g3.tie_max = g.tie_max
      rw [hm2]
      have : (if isStep then g2 else { g2 with tie_counter := 0 }).tie_max
          = g2.tie_max := by cases isStep <;> simp
      rw [this, hm1']
    have hturn3 : g3.turn = g.turn := by
      rw [ht2]
      have : (if isStep then g2 else { g2 with tie_counter := 0 }).turn = g2.turn := by
        cases isStep <;> simp
      rw [this, ht1']
    have hstate3 : g3.state = GameState.UNFINISHED := by
      rw [hs2]
      have : (if isStep then g2 else { g2 with tie_counter := 0 }).state = g2.state := by
        cases isStep <;> simp
      rw [this, hs1', hstate]
    refine ⟨?_, ?_, ?_, ?_⟩
    · intro hsimp
      rcases hclass with ⟨hcf, _⟩ | ⟨_, hst⟩
      · rw [hsimp] at hcf; cases hcf
      · rw [htie', hst, if_pos rfl]
    · intro hsimp
      rcases hclass with ⟨_, hsf⟩ | ⟨hct, _⟩
      · rw [htie', hsf]
        simp
      · rw [hct] at hsimp; cases hsimp
    · intro hge
      apply utie
      show ({ g3 with turn := g3.opponent } : Game).tie_counter
        ≥ ({ g3 with turn := g3.opponent } : Game).tie_max
      show g3.tie_counter ≥ g3.tie_max
      have e1 : g3.tie_counter = g'.tie_counter := (utc).symm
      have e2 : g3.tie_max = g'.tie_max := (utm).symm
      rw [e1, e2, hmax']
      exact hge
    · intro hlt ms' hms'
      have hnot : ¬ ({ g3 with turn := g3.opponent } : Game).tie_counter
          ≥ ({ g3 with turn := g3.opponent } : Game).tie_max := by
        show ¬ g3.tie_counter ≥ g3.tie_max
        have e1 : g3.tie_counter = g'.tie_counter := (utc).symm
        have e2 : g3.tie_max = g'.tie_max := (utm).symm
        rw [e1, e2, hmax']
        omega
      obtain ⟨ms2, hms2, hwin, hgo⟩ := uelse hnot
      have hcong : g'.get_all_moves
          = ({ g3 with turn := g3.opponent } : Game).get_all_moves :=
        get_all_moves_congr ub ut
      rw [hcong, hms2] at hms'
      injection hms' with hms'
      subst hms'
      constructor
      · intro hnil
        rw [hwin hnil]
        show (if g3.opponent = Color.BLACK then GameState.WHITE_WON
          else GameState.BLACK_WON) = _
        unfold Game.opponent
        rw [hturn3]
        cases hgt : g.turn <;> simp
      · intro hne
        rw [hgo hne]
        show g3.state = GameState.UNFINISHED
        exact hstate3

theorem tie_counter_and_state_witness :
    g4post.tie_counter = (gInit 4).tie_counter + 1 ∧ g4post.state = GameState.UNFINISHED := by
  have hmm : (gInit 4).make_move m4first = .ok g4post := by decide
  have hms : (gInit 4).get_all_moves
      = .ok [m4first, { start := (0, 1), steps := [(1, 2)], index := 0 },
             { start := (0, 3), steps := [(1, 2)], index := 0 }] := by decide
  have hmain := tie_counter_and_state (gInit 4) m4first _ g4post (by decide) hms
    (by decide) hmm
  refine ⟨hmain.1 (by decide), ?_⟩
  exact (hmain.2.2.2 (by decide)
    [{ start := (3, 0), steps := [(2, 1)], index := 0 },
     { start := (3, 2), steps := [(2, 1)], index := 0 },
     { start := (3, 2), steps := [(2, 3)], index := 0 }] (by decide)).2 (by decide)

theorem forced_capture_invariant_witness :
    (gInit 4).collectMoves (gInit 4).get_not_beat_moves
      = .ok [m4first, { start := (0, 1), steps := [(1, 2)], index := 0 },
             { start := (0, 3), steps := [(1, 2)], index := 0 }]
      ∧ m4first.isSimpleStep = true := by
  have h := forced_capture_invariant (gInit 4)
    [m4first, { start := (0, 1), steps := [(1, 2)], index := 0 },
     { start := (0, 3), steps := [(1, 2)], index := 0 }] [] (by decide) (by decide)
  obtain ⟨h1, h2⟩ := h.2 rfl
  exact ⟨h1, h2 m4first (by decide)⟩

/-! Size preservation through board construction. -/

theorem rawSet_size {b : Board} {r c : ℕ} {v : Cell} {b' : Board}
    (h : b.rawSet r c v = .ok b') : b'.size = b.size := by
  unfold Board.rawSet at h
  split at h
  · cases h
  next row hrow =>
    split at h
    · cases h
    next cell hcell =>
      injection h with h
      subst h
      rfl

theorem fillRow_size {b : Board} {row : ℕ} {v : Cell} {b' : Board}
    (h : b.fillRow row v = .ok b') : b'.size = b.size := by
  refine (foldlM_ok_mem
    (fun b1 col => if row % 2 ≠ col % 2 then Board.rawSet b1 row col v else .ok b1)
    (fun b1 => b1.size = b.size) ?_ (List.range b.size) b b' rfl h).1
  intro b1 x b2 hP hf
  have hf2 : (if row % 2 ≠ x % 2 then b1.rawSet row x v else Except.ok b1)
      = Except.ok b2 := hf
  split at hf2
  · exact (rawSet_size hf2).trans hP
  · injection hf2 with hf2
    subst hf2
    exact hP

theorem fillRows_size {b : Board} {rows : List ℕ} {v : Cell} {b' : Board}
    (h : b.fillRows rows v = .ok b') : b'.size = b.size := by
  refine (foldlM_ok_mem (fun b0 row => Board.fillRow b0 row v)
    (fun b1 => b1.size = b.size) ?_ rows b b' rfl h).1
  intro b1 x b2 hP hf
  exact (fillRow_size hf).trans hP

theorem fill_initial_size {b b' : Board} (h : b.fill_initial = .ok b') :
    b'.size = b.size := by
  unfold Board.fill_initial at h
  simp only [] at h
  cases h1 : b.fillRows
      (List.range ((b.size : ℤ) / 2 - 1 + (b.size : ℤ) % 2).toNat) Cell.BLACK with
  | error e => rw [h1] at h; simp only [error_bind] at h; cases h
  | ok b1 =>
    rw [h1] at h
    simp only [ok_bind] at h
    exact (fillRows_size h).trans (fillRows_size h1)

theorem board_init_size {size : ℕ} {b : Board} (h : Board.init size = .ok b) :
    b.size = if size ≠ 0 then size else 8 := by
  unfold Board.init at h
  exact fill_initial_size h

/-- C6 amended: Board(N) succeeds only for N up to 8 (the backing
storage is always 8 x 8); within that range the layout and the per-side
piece counts are as the spec states. -/
theorem board_init_layout (N : ℕ) (h1 : 0 < N) (h2 : N ≤ 8) :
    Board.init N = .ok (bInit N) ∧ (bInit N).size = N ∧
    (∀ r < N, ∀ c < N,
      (bInit N).get_cell (r : ℤ) (c : ℤ) = .ok (specInitialLayout N r c)) ∧
    (bInit N).countP isBcell = specInitialCount N ∧
    (bInit N).countP isWcell = specInitialCount N := by
  interval_cases N <;>
    exact ⟨by decide, by decide, by decide, by decide, by decide⟩

theorem board_init_layout_witness :
    (0 < 4 ∧ 4 ≤ 8) ∧ Board.init 4 = .ok (bInit 4) ∧ (bInit 4).size = 4 ∧
    (bInit 4).countP isBcell = specInitialCount 4 ∧
    (bInit 4).countP isWcell = specInitialCount 4 := by
  have h := board_init_layout 4 (by decide) (by decide)
  exact ⟨⟨by decide, by decide⟩, h.1, h.2.1, h.2.2.2.1, h.2.2.2.2⟩

/-- C7 amended: the repetition ceiling is size * size // 2 computed from
the constructor ARGUMENT, so the default (argument 0) gives tie_max = 0
even though the board is then 8 x 8; for a nonzero argument the board
size equals the argument and tie_max = size^2 // 2 as the spec states. -/
theorem tie_max_from_argument (size : ℕ) (g : Game) (h : Game.init size = .ok g) :
    g.tie_max = ((size * size / 2 : ℕ) : ℤ) ∧
    (size = 0 → g.board.size = 8) ∧ (size ≠ 0 → g.board.size = size) := by
  unfold Game.init at h
  cases hb : Board.init size with
  | error e => rw [hb] at h; simp only [error_bind] at h; cases h
  | ok b =>
    rw [hb] at h
    simp only [ok_bind] at h
    injection h with h
    subst h
    have hs := board_init_size hb
    refine ⟨rfl, ?_, ?_⟩
    · intro hz
      rw [hs, hz]
      decide
    · intro hnz
      rw [hs, if_pos hnz]

theorem tie_max_from_argument_witness :
    (gInit 4).tie_max = ((4 * 4 / 2 : ℕ) : ℤ) ∧ (gInit 4).board.size = 4 := by
  have h := tie_max_from_argument 4 (gInit 4) (by decide)
  exact ⟨h.1, h.2.2 (by decide)⟩

/-! Counting cells: a single in-bounds write changes countP by the weight
difference of the old and new values. -/

theorem sum2_update {n : ℕ} (f g : ℕ → ℕ → ℤ) (r0 c0 : ℕ) (w1 w2 : ℤ)
    (hr : r0 < n) (hc : c0 < n)
    (hagree : ∀ r c : ℕ, ¬ (r = r0 ∧ c = c0) → f r c = g r c)
    (h1 : f r0 c0 = w1) (h2 : g r0 c0 = w2) :
    ∑ r ∈ Finset.range n, ∑ c ∈ Finset.range n, f r c
      = (∑ r ∈ Finset.range n, ∑ c ∈ Finset.range n, g r c) - w2 + w1 := by
  have hz : ∀ r ∈ Finset.range n, r ≠ r0 →
      (∑ c ∈ Finset.range n, (f r c - g r c)) = 0 := by
    intro r _ hrne
    apply Finset.sum_eq_zero
    intro c _
    rw [hagree r c (fun hx => hrne hx.1)]
    ring
  have hzc : ∀ c ∈ Finset.range n, c ≠ c0 → f r0 c - g r0 c = 0 := by
    intro c _ hcne
    rw [hagree r0 c (fun hx => hcne hx.2)]
    ring
  have key : ∑ r ∈ Finset.range n, ∑ c ∈ Finset.range n, (f r c - g r c)
      = w1 - w2 := by
    rw [Finset.sum_eq_single_of_mem r0 (Finset.mem_range.mpr hr) hz]
    rw [Finset.sum_eq_single_of_mem c0 (Finset.mem_range.mpr hc) hzc]
    rw [h1, h2]
  have hdist : ∑ r ∈ Finset.range n, ∑ c ∈ Finset.range n, (f r c - g r c)
      = (∑ r ∈ Finset.range n, ∑ c ∈ Finset.range n, f r c)
        - ∑ r ∈ Finset.range n, ∑ c ∈ Finset.range n, g r c := by
    rw [← Finset.sum_sub_distrib]
    apply Finset.sum_congr rfl
    intro r _
    rw [Finset.sum_sub_distrib]
  linarith [key, hdist]

theorem countP_set (p : Cell → Bool) {b : Board} {row col : ℤ} {prev v : Cell}
    {b' : Board} (hget : b.get_cell row col = .ok prev)
    (hset : b.set_cell row col v = .ok b') :
    b'.countP p = b.countP p - cellWeight p prev + cellWeight p v := by
  obtain ⟨⟨h0r, h1r, h0c, h1c⟩, _⟩ := set_cell_spec hset
  have hsize : b'.size = b.size := set_cell_size hset
  have hrlt : row.toNat < b.size := by omega
  have hclt : col.toNat < b.size := by omega
  have hrc : ((row.toNat : ℕ) : ℤ) = row := Int.toNat_of_nonneg h0r
  have hcc : ((col.toNat : ℕ) : ℤ) = col := Int.toNat_of_nonneg h0c
  have hag : ∀ r c : ℕ, ¬ (r = row.toNat ∧ c = col.toNat) →
      (if (match b'.get_cell (r : ℕ) (c : ℕ) with
           | .ok cell => p cell | .error _ => false) then (1 : ℤ) else 0)
      = (if (match b.get_cell (r : ℕ) (c : ℕ) with
           | .ok cell => p cell | .error _ => false) then (1 : ℤ) else 0) := by
    intro r c hne
    have hne' : ¬ ((r : ℤ) = row ∧ (c : ℤ) = col) := by
      intro hx
      obtain ⟨hx1, hx2⟩ := hx
      exact hne ⟨by omega, by omega⟩
    rw [get_after_set_other hset hne']
  have h := sum2_update
    (fun r c : ℕ => if (match b'.get_cell (r : ℕ) (c : ℕ) with
         | .ok cell => p cell | .error _ => false) then (1 : ℤ) else 0)
    (fun r c : ℕ => if (match b.get_cell (r : ℕ) (c : ℕ) with
         | .ok cell => p cell | .error _ => false) then (1 : ℤ) else 0)
    row.toNat col.toNat (cellWeight p v) (cellWeight p prev) hrlt hclt hag
    (by show (if (match b'.get_cell ((row.toNat : ℕ) : ℤ) ((col.toNat : ℕ) : ℤ) with
          | .ok cell => p cell | .error _ => false) then (1 : ℤ) else 0) = cellWeight p v
        rw [hrc, hcc, get_after_set_same hset]
        rfl)
    (by show (if (match b.get_cell ((row.toNat : ℕ) : ℤ) ((col.toNat : ℕ) : ℤ) with
          | .ok cell => p cell | .error _ => false) then (1 : ℤ) else 0) = cellWeight p prev
        rw [hrc, hcc, hget]
        rfl)
  unfold Board.countP
  rw [hsize]
  exact h

/-! Preservation of the counter invariant through every state-changing
operation. -/

theorem game_set_cell_countersOk {g : Game} {row col : ℤ} {v : Cell} {g' : Game}
    (h : g.set_cell row col v = .ok g') (hInv : Game.countersOk g) :
    Game.countersOk g' := by
  obtain ⟨prev, b', top, rest, hget, hset, hlc, hboard, _, _, _, _, _, hb, hw⟩ :=
    game_set_cell_spec h
  constructor
  · rw [hboard, countP_set isBcell hget hset, hInv.1, hb]
  · rw [hboard, countP_set isWcell hget hset, hInv.2, hw]

theorem set_cell_undo_spec {g : Game} {row col : ℤ} {w : Cell} {g' : Game}
    (h : g.set_cell_undo row col w = .ok g') :
    ∃ cur b', g.board.get_cell row col = .ok cur ∧
      g.board.set_cell row col w = .ok b' ∧ g'.board = b' ∧
      g'.black_count = g.black_count - cellWeight isBcell cur + cellWeight isBcell w ∧
      g'.white_count = g.white_count - cellWeight isWcell cur + cellWeight isWcell w := by
  unfold Game.set_cell_undo at h
  cases hget : g.board.get_cell row col with
  | error e => rw [hget] at h; simp only [error_bind] at h; cases h
  | ok cur =>
    rw [hget] at h
    simp only [ok_bind] at h
    by_cases htie : g.tie_counter > 0
    · rw [if_pos htie] at h
      rw [show ({ g with tie_counter := g.tie_counter - 1 } : Game).board
          = g.board from rfl] at h
      cases hset : g.board.set_cell row col w with
      | error e => rw [hset] at h; simp only [error_bind] at h; cases h
      | ok b' =>
        rw [hset] at h
        simp only [ok_bind] at h
        injection h with h
        subst h
        obtain ⟨f1, f2, f3, f4, f5, f6, f7, f8⟩ := update_counters_fields
          { g with tie_counter := g.tie_counter - 1, board := b' } cur w
        exact ⟨cur, b', rfl, rfl, f1, f7, f8⟩
    · rw [if_neg htie] at h
      cases hset : g.board.set_cell row col w with
      | error e => rw [hset] at h; simp only [error_bind] at h; cases h
      | ok b' =>
        rw [hset] at h
        simp only [ok_bind] at h
        injection h with h
        subst h
        obtain ⟨f1, f2, f3, f4, f5, f6, f7, f8⟩ := update_counters_fields
          { g with board := b' } cur w
        exact ⟨cur, b', rfl, rfl, f1, f7, f8⟩

theorem set_cell_undo_countersOk {g : Game} {row col : ℤ} {w : Cell} {g' : Game}
    (h : g.set_cell_undo row col w = .ok g') (hInv : Game.countersOk g) :
    Game.countersOk g' := by
  obtain ⟨cur, b', hget, hset, hboard, hb, hw⟩ := set_cell_undo_spec h
  constructor
  · rw [hboard, countP_set isBcell hget hset, hInv.1, hb]
  · rw [hboard, countP_set isWcell hget hset, hInv.2, hw]

theorem undoLoop_countersOk : ∀ (es : List (ℤ × ℤ × Cell)) (g g' : Game),
    Game.countersOk g → g.undoLoop es = .ok g' → Game.countersOk g' := by
  intro es
  induction es with
  | nil =>
    intro g g' hInv h
    injection h with h
    subst h
    exact hInv
  | cons e es ih =>
    intro g g' hInv h
    obtain ⟨row, col, cell⟩ := e
    unfold Game.undoLoop at h
    cases h1 : g.set_cell_undo row col cell with
    | error e2 => rw [h1] at h; simp only [error_bind] at h; cases h
    | ok g1 =>
      rw [h1] at h
      simp only [ok_bind] at h
      exact ih g1 g' (set_cell_undo_countersOk h1 hInv) h

theorem applyWrites_countersOk : ∀ (ws : List (ℤ × ℤ × Cell)) (g g' : Game),
    Game.countersOk g → Game.applyWrites g ws = .ok g' → Game.countersOk g' := by
  intro ws
  induction ws with
  | nil =>
    intro g g' hInv h
    injection h with h
    subst h
    exact hInv
  | cons w ws ih =>
    intro g g' hInv h
    obtain ⟨r, c, v⟩ := w
    unfold Game.applyWrites at h
    cases h1 : g.set_cell r c v with
    | error e => rw [h1] at h; simp only [error_bind] at h; cases h
    | ok g1 =>
      rw [h1] at h
      simp only [ok_bind] at h
      exact ih g1 g' (game_set_cell_countersOk h1 hInv) h

theorem make_move_countersOk {g : Game} {m : Move} {g' : Game}
    (h : g.make_move m = .ok g') (hInv : Game.countersOk g) :
    Game.countersOk g' := by
  obtain ⟨isStep, ws1, ws2, g2, g3, hw1, hw2, hup, _⟩ := make_move_decomp h
  have h0 : Game.countersOk { g with tie_counter := g.tie_counter + 1,
                                     last_changes := [] :: g.last_changes } := hInv
  have h2 := applyWrites_countersOk ws1 _ g2 h0 hw1
  have h2b : Game.countersOk (if isStep then g2 else { g2 with tie_counter := 0 }) := by
    cases isStep
    · exact h2
    · exact h2
  have h3 := applyWrites_countersOk ws2 _ g3 h2b hw2
  obtain ⟨ub, _, _, ubc, uwc, _, _, _, _⟩ := update_state_spec hup
  constructor
  · rw [ub, ubc]
    exact h3.1
  · rw [ub, uwc]
    exact h3.2

theorem undo_countersOk {g g' : Game} (h : g.undo = .ok g')
    (hInv : Game.countersOk g) : Game.countersOk g' := by
  unfold Game.undo at h
  cases hlc : g.last_changes with
  | nil =>
    rw [hlc] at h
    injection h with h
    subst h
    exact hInv
  | cons changes rest =>
    rw [hlc] at h
    have h2 : Game.undoLoop { g with state := GameState.UNFINISHED,
                                     last_changes := rest } changes.reverse
        = Except.ok g' := h
    exact undoLoop_countersOk changes.reverse
      { g with state := GameState.UNFINISHED, last_changes := rest } g' hInv h2

/-! Board construction can only succeed for sizes up to 8: the backing
allocation is always 8 x 8 and the white fill writes into row size-1. -/

theorem rawSet_shape {b : Board} {r c : ℕ} {v : Cell} {b' : Board}
    (h : b.rawSet r c v = .ok b') (hs : shape8 b) : shape8 b' := by
  obtain ⟨rr, hrr, hclen, hb'⟩ := rawSet_spec h
  subst hb'
  refine ⟨?_, ?_⟩
  · show (b.cells.set r (rr.set c v)).length = 8
    rw [List.length_set]
    exact hs.1
  · intro x hx
    rcases list_mem_set _ _ _ _ hx with hx | hx
    · exact hs.2 x hx
    · subst hx
      show (rr.set c v).length = 8
      rw [List.length_set]
      exact hs.2 rr (list_get_mem _ _ _ hrr)

theorem fillRow_good (n : ℕ) {b : Board} {row : ℕ} {v : Cell} {b' : Board}
    (h : b.fillRow row v = .ok b') (hg : shape8 b ∧ b.size = n) :
    shape8 b' ∧ b'.size = n := by
  refine (foldlM_ok_mem
    (fun b1 col => if row % 2 ≠ col % 2 then Board.rawSet b1 row col v else .ok b1)
    (fun b1 => shape8 b1 ∧ b1.size = n) ?_ (List.range b.size) b b' hg h).1
  intro b1 x b2 hP hf
  have hf2 : (if row % 2 ≠ x % 2 then b1.rawSet row x v else Except.ok b1)
      = Except.ok b2 := hf
  split at hf2
  · exact ⟨rawSet_shape hf2 hP.1, (rawSet_size hf2).trans hP.2⟩
  · injection hf2 with hf2
    subst hf2
    exact hP

theorem fillRows_good_mem (n : ℕ) {b : Board} {rows : List ℕ} {v : Cell} {b' : Board}
    (h : b.fillRows rows v = .ok b') (hg : shape8 b ∧ b.size = n) :
    (shape8 b' ∧ b'.size = n) ∧
    ∀ row ∈ rows, ∃ b1 b2, (shape8 b1 ∧ b1.size = n) ∧ b1.fillRow row v = .ok b2 :=
  foldlM_ok_mem (fun b0 row => Board.fillRow b0 row v)
    (fun b1 => shape8 b1 ∧ b1.size = n)
    (fun _ _ _ hP hf => fillRow_good n hf hP) rows b b' hg h

theorem fillRow_row_lt8 {b : Board} {row : ℕ} {v : Cell} {b' : Board}
    (h : b.fillRow row v = .ok b') (hs : shape8 b) (h2 : 2 ≤ b.size) : row < 8 := by
  have hmem := (foldlM_ok_mem
    (fun b1 col => if row % 2 ≠ col % 2 then Board.rawSet b1 row col v else .ok b1)
    (fun b1 => shape8 b1) ?_ (List.range b.size) b b' hs h).2
  · have hcol : ∃ col ∈ List.range b.size, row % 2 ≠ col % 2 := by
      by_cases hp : row % 2 = 0
      · exact ⟨1, by rw [List.mem_range]; omega, by omega⟩
      · exact ⟨0, by rw [List.mem_range]; omega, by omega⟩
    obtain ⟨col, hcolmem, hcolp⟩ := hcol
    obtain ⟨b1, b2, hP1, hf⟩ := hmem col hcolmem
    have hf2 : (if row % 2 ≠ col % 2 then b1.rawSet row col v else Except.ok b1)
        = Except.ok b2 := hf
    rw [if_pos hcolp] at hf2
    obtain ⟨rr, hrr, _, _⟩ := rawSet_spec hf2
    have hlt := list_get_lt hrr
    rw [hP1.1] at hlt
    exact hlt
  · intro b1 x b2 hP hf
    have hf2 : (if row % 2 ≠ x % 2 then b1.rawSet row x v else Except.ok b1)
        = Except.ok b2 := hf
    split at hf2
    · exact rawSet_shape hf2 hP
    · injection hf2 with hf2
      subst hf2
      exact hP

theorem fill_initial_le8 {b b' : Board} (h : b.fill_initial = .ok b')
    (hs : shape8 b) (_h2 : 2 ≤ b.size) : b.size ≤ 8 := by
  unfold Board.fill_initial at h
  simp only [] at h
  cases h1 : b.fillRows
      (List.range ((b.size : ℤ) / 2 - 1 + (b.size : ℤ) % 2).toNat) Cell.BLACK with
  | error e => rw [h1] at h; simp only [error_bind] at h; cases h
  | ok b1 =>
    rw [h1] at h
    simp only [ok_bind] at h
    obtain ⟨⟨hs1, hsz1⟩, _⟩ := fillRows_good_mem b.size h1 ⟨hs, rfl⟩
    by_contra hgt
    push_neg at hgt
    obtain ⟨_, hmem⟩ := fillRows_good_mem b.size h ⟨hs1, hsz1⟩
    have hrowmem : (b.size - 1)
        ∈ List.range' (b.size / 2 + 1) (b.size - (b.size / 2 + 1)) := by
      rw [List.mem_range'_1]
      omega
    obtain ⟨bb1, bb2, ⟨hbs, hbsz⟩, hf⟩ := hmem _ hrowmem
    have hlt8 := fillRow_row_lt8 hf hbs (by omega)
    omega

theorem board_init_le8 {size : ℕ} {b : Board} (h : Board.init size = .ok b) :
    size ≤ 8 := by
  by_cases hz : size = 0
  · omega
  · by_cases h2 : 2 ≤ size
    · unfold Board.init at h
      have hsz : ({ size := if size ≠ 0 then size else SIZE,
                    cells := List.replicate SIZE (List.replicate SIZE Cell.EMPTY) }
            : Board).size = size := by
        show (if size ≠ 0 then size else SIZE) = size
        rw [if_pos hz]
      have hshape : shape8 { size := if size ≠ 0 then size else SIZE,
                             cells := List.replicate SIZE
                               (List.replicate SIZE Cell.EMPTY) } := by
        constructor
        · show (List.replicate SIZE (List.replicate SIZE Cell.EMPTY)).length = 8
          rw [List.length_replicate]
          rfl
        · intro r hr
          rw [List.eq_of_mem_replicate hr, List.length_replicate]
          rfl
      have hle := fill_initial_le8 h hshape (by rw [hsz]; omega)
      rw [hsz] at hle
      exact hle
    · omega

theorem init_countersOk {size : ℕ} {g : Game} (h : Game.init size = .ok g) :
    Game.countersOk g := by
  have hle : size ≤ 8 := by
    unfold Game.init at h
    cases hb : Board.init size with
    | error e => rw [hb] at h; simp only [error_bind] at h; cases h
    | ok b => exact board_init_le8 hb
  have hg : gInit size = g := by
    unfold gInit
    rw [h]
  subst hg
  interval_cases size <;> exact ⟨by decide, by decide⟩

/-- C10: in every game state reachable from a fresh game by legal moves
and undos, black_count equals the number of board cells holding a black
man or black king, and white_count likewise for white. -/
theorem counters_match_board (g : Game) (h : Reachable g) : Game.countersOk g := by
  induction h with
  | init size g0 hinit => exact init_countersOk hinit
  | move g0 m ms g' hr hms hmem hmk ih => exact make_move_countersOk hmk ih
  | undo g0 g' hr hu ih => exact undo_countersOk hu ih

theorem counters_match_board_witness : Game.countersOk (gInit 4) :=
  counters_match_board (gInit 4) (Reachable.init 4 (gInit 4) (by decide))

end Checkers
